import Mathlib

/-!
Verification of the Pulzar CLI dependency-injection compiler core
(`build-di` command and its incremental watch coordinator).

The definitions below are a shallow embedding of the TypeScript source:
`buildDI`, `validateCompilationResult` (missing-dependency collection and
three-color circular-dependency detection), and the watch-mode machinery
(`setupWatchMode`: file-hash cache, debounce coalescing, affected-file
expansion, incremental rebuild).  External collaborators (the `@pulzar/core`
AST compiler, the `crypto` md5 digest, the `node:path` helpers, the
filesystem) are abstracted as parameters; everything owned by this
repository is translated directly.
-/

namespace PulzarDI

/-- A provider record as produced by the AST compiler and consumed by
`validateCompilationResult`: a token, the ordered dependency tokens, and the
originating source file. -/
structure Provider where
  token : String
  dependencies : List String
  sourceFile : String
deriving Repr, DecidableEq

/-- The compilation result handed from `compiler.compile()` to validation and
emission.  Only `providers` is inspected by validation; `modules` is carried
for log output. -/
structure CompilationResult where
  providers : List Provider
  modules : List String
deriving Repr, DecidableEq

/-- `result.providers.find(p => p.token === token)` — the first provider with
the given token. -/
def findProvider (providers : List Provider) (token : String) : Option Provider :=
  providers.find? (fun p => p.token == token)

/-- Dependency-edge successors of a token: the dependency list of the first
provider carrying it, `[]` when no provider does (the source recurses only
`if (provider)`). -/
def succs (providers : List Provider) (token : String) : List String :=
  match findProvider providers token with
  | some p => p.dependencies
  | none => []

/-- Boolean dependency edge: `b` is listed among the dependencies of the
provider found for `a`. -/
def edgeB (providers : List Provider) (a b : String) : Bool :=
  (succs providers a).contains b

/-- Propositional dependency edge over the provider set. -/
def edgeP (providers : List Provider) (a b : String) : Prop :=
  edgeB providers a b = true

instance (providers : List Provider) (a b : String) : Decidable (edgeP providers a b) := by
  unfold edgeP
  infer_instance

/-- The message pushed for a missing dependency:
`Missing dependency '<dep>' for provider '<token>'`. -/
def missingMessage (token dep : String) : String :=
  "Missing dependency \x27" ++ dep ++ "\x27 for provider \x27" ++ token ++ "\x27"

/-- First validation phase of `validateCompilationResult`: for every provider
and every declared dependency, if no provider carries the dependency token
(`result.providers.some(p => p.token === dep)` is false), push a
`missingMessage`.  All violations are accumulated in order. -/
def missingErrors (providers : List Provider) : List String :=
  providers.foldl
    (fun errs p =>
      p.dependencies.foldl
        (fun errs2 dep =>
          if providers.any (fun q => q.token == dep) then errs2
          else errs2 ++ [missingMessage p.token dep])
        errs)
    []

/-- The message pushed when a token already on the current path is
re-encountered: `Circular dependency detected: <path joined by arrows>`. -/
def cycleMessage (l : List String) : String :=
  "Circular dependency detected: " ++ String.intercalate " -> " l

/-- The mutable closure state of `validateCompilationResult`'s circular check:
the shared `errors` array, the `visiting` and `visited` sets (JS `Set`,
modelled as duplicate-free insertion-order lists).  `cycles` records, for each
pushed circular-dependency error, the token list that was stringified into it
(`path.concat(token)`), so that theorems can speak about the reported paths
without re-parsing strings. -/
structure CCState where
  errors : List String
  cycles : List (List String)
  visiting : List String
  visited : List String
deriving Repr, DecidableEq

/-- The `for (const dep of provider.dependencies)` loop inside
`checkCircular`: visit each dependency in order with the given visit function,
returning `true` (and stopping) as soon as one visit reports a cycle. -/
def ccDeps (visit : String → CCState → Bool × CCState) :
    List String → CCState → Bool × CCState
  | [], s => (false, s)
  | dep :: rest, s =>
    let r := visit dep s
    if r.1 then r
    else ccDeps visit rest r.2

/-- `checkCircular(token, path)` from `validateCompilationResult`, with an
explicit fuel for the recursion depth.  The JS recursion depth is bounded by
the number of providers plus one (every stack frame's token is distinct and
every frame but the deepest owns a provider), so running with fuel
`providers.length + 1` — as `runValidation` below does — never reaches the
fuel-exhaustion branch and coincides with the source. -/
def checkCircular (providers : List Provider) :
    Nat → String → List String → CCState → Bool × CCState
  | 0, _, _, s => (false, s)
  | Nat.succ fuel, token, path, s =>
    if s.visiting.contains token then
      (true,
        { s with
          errors := s.errors ++ [cycleMessage (path ++ [token])]
          cycles := s.cycles ++ [path ++ [token]] })
    else if s.visited.contains token then
      (false, s)
    else
      let s1 : CCState := { s with visiting := s.visiting ++ [token] }
      let r : Bool × CCState :=
        match findProvider providers token with
        | some provider =>
            ccDeps (fun dep s2 => checkCircular providers fuel dep (path ++ [token]) s2)
              provider.dependencies s1
        | none => (false, s1)
      if r.1 then (true, r.2)
      else
        (false,
          { r.2 with
            visiting := r.2.visiting.erase token
            visited := r.2.visited ++ [token] })

/-- The whole of `validateCompilationResult` up to (but not including) the
final throw: seed `errors` with the missing-dependency messages, then run
`checkCircular(provider.token)` for every provider in order, threading the
shared state. -/
def runValidation (providers : List Provider) : CCState :=
  providers.foldl
    (fun s p => (checkCircular providers (providers.length + 1) p.token [] s).2)
    { errors := missingErrors providers, cycles := [], visiting := [], visited := [] }

/-- The `errors` array at the point where `validateCompilationResult` decides
whether to throw. -/
def validationErrors (r : CompilationResult) : List String :=
  (runValidation r.providers).errors

/-- `validateCompilationResult`: throw `DI validation failed: <errors joined>`
when any error was collected, otherwise return normally. -/
def validateCompilationResult (r : CompilationResult) : Except String Unit :=
  if (validationErrors r).isEmpty then Except.ok ()
  else
    Except.error
      ("DI validation failed: " ++ String.intercalate ", " (validationErrors r))

/-!  ## The `buildDI` entry point

`buildDI` wraps the whole pipeline (`scanProject` → `compile` → optional
`validateCompilationResult` → `saveGeneratedCode`) in one try/catch whose
handler logs and calls `process.exit(1)`.  The `@pulzar/core` compiler steps
are external collaborators, so their outcomes are inputs of the model. -/

/-- Outcomes of the external `@pulzar/core` compiler steps invoked by
`buildDI`: whether `scanProject` throws, what `compile` returns or throws, and
whether `saveGeneratedCode` throws. -/
structure PipelineSteps where
  scan : Except String Unit
  compileRes : Except String CompilationResult
  save : Except String Unit

/-- The body of `buildDI`'s try block: run the steps in source order, where
`Except.error` models a thrown exception; validation runs only when
`config.validate` is set.  Returns `true` when `saveGeneratedCode` completed
(the artifact was written). -/
def buildDITry (validate : Bool) (steps : PipelineSteps) : Except String Bool :=
  match steps.scan with
  | Except.error e => Except.error e
  | Except.ok _ =>
    match steps.compileRes with
    | Except.error e => Except.error e
    | Except.ok result =>
      match (if validate then validateCompilationResult result else Except.ok ()) with
      | Except.error e => Except.error e
      | Except.ok _ =>
        match steps.save with
        | Except.error e => Except.error e
        | Except.ok _ => Except.ok true

/-- What `buildDI` looks like to the operating system and to its programmatic
caller: the process exit it requests, whether the artifact write completed,
and the exception it lets escape to the caller (`generateDIContainer`'s
`catch`, say). -/
structure BuildDIResult where
  exitCode : Option Nat
  emitted : Bool
  thrownToCaller : Option String
deriving Repr, DecidableEq

/-- `buildDI` (non-watch part): the catch handler logs the error and calls
`process.exit(1)`; no exception ever propagates out of `buildDI`. -/
def buildDIModel (validate : Bool) (steps : PipelineSteps) : BuildDIResult :=
  match buildDITry validate steps with
  | Except.ok emitted => { exitCode := none, emitted := emitted, thrownToCaller := none }
  | Except.error _ => { exitCode := some 1, emitted := false, thrownToCaller := none }

/-!  ## Watch mode: file-hash cache (`setupWatchMode`)

The `crypto` md5 digest is an external collaborator, abstracted as an
arbitrary `hashFn : String → String`; the filesystem is a partial map
`fs : String → Option String` from path to readable content. -/

/-- The `fileHashes : Map<string, string>` cache, as an association list in
insertion order. -/
def Cache := List (String × String)

/-- `fileHashes.get(path)`. -/
def lookupHash (c : Cache) (p : String) : Option String :=
  match List.find? (fun e => e.1 == p) c with
  | some e => some e.2
  | none => none

/-- `fileHashes.set(path, h)`: replace the entry for `path` when present,
append otherwise. -/
def setHash (c : Cache) (p h : String) : Cache :=
  match c with
  | [] => [(p, h)]
  | e :: rest => if e.1 == p then (p, h) :: rest else e :: setHash rest p h

/-- `fileHashes.delete(path)`. -/
def eraseHash (c : Cache) (p : String) : Cache :=
  List.filter (fun e => !(e.1 == p)) c

/-- `getFileHash`: read the file and hash its content; any read failure (for
example a deleted file) yields the empty string. -/
def getFileHash (hashFn : String → String) (fs : String → Option String)
    (p : String) : String :=
  match fs p with
  | some content => hashFn content
  | none => ""

/-- `hasFileChanged`: compare the current hash against the recorded one
(`undefined` when the path is untracked, modelled by `Option`); when they
differ, record the new hash and report a change.  Note the recorded hash is
updated here, at detection time. -/
def hasFileChanged (hashFn : String → String) (fs : String → Option String)
    (c : Cache) (p : String) : Bool × Cache :=
  let currentHash := getFileHash hashFn fs p
  if lookupHash c p = some currentHash then (false, c)
  else (true, setHash c p currentHash)

/-- `initializeFileHashes`: seed the cache with the hash of every enumerated
source file. -/
def initializeFileHashes (hashFn : String → String) (fs : String → Option String)
    (files : List String) : Cache :=
  files.foldl (fun c p => setHash c p (getFileHash hashFn fs p)) []

/-- The `unlink` watcher handler's cache mutation: drop the file's hash entry
(the handler then also feeds the path into `debouncedRebuild`). -/
def unlinkHandler (c : Cache) (p : String) : Cache :=
  eraseHash c p

/-!  ## Watch mode: debounce window -/

/-- `pendingChanges.add(filePath)` (JS `Set`: insertion order, no
duplicates). -/
def addPending (pending : List String) (p : String) : List String :=
  if pending.contains p then pending else pending ++ [p]

/-- The contents of `pendingChanges` after a burst of change notifications all
landing inside one debounce window: each notification adds its path and
re-arms the single timer, so no flush happens in between. -/
def collectWindow (events : List String) : List String :=
  events.foldl addPending []

/-- The `for (const file of changedFiles) if (await hasFileChanged(file))`
filter inside the debounce callback, threading the cache. -/
def filterChanged (hashFn : String → String) (fs : String → Option String) :
    List String → Cache → List String × Cache
  | [], c => ([], c)
  | p :: rest, c =>
    let r := hasFileChanged hashFn fs c p
    let rst := filterChanged hashFn fs rest r.2
    (if r.1 then p :: rst.1 else rst.1, rst.2)

/-- One debounce-timer expiry: take the coalesced batch, clear the pending
set, keep only files whose hash actually changed, and invoke
`incrementalRebuild` on the result when it is non-empty.  The returned list
holds one entry per `incrementalRebuild` invocation (its `changedFiles`
argument). -/
def flushWindow (hashFn : String → String) (fs : String → Option String)
    (c : Cache) (pending : List String) : List (List String) × Cache :=
  let r := filterChanged hashFn fs pending c
  (if r.1.isEmpty then [] else [r.1], r.2)

/-- A full debounce window: a burst of notifications followed by the single
timer expiry. -/
def processWindow (hashFn : String → String) (fs : String → Option String)
    (c : Cache) (events : List String) : List (List String) × Cache :=
  flushWindow hashFn fs c (collectWindow events)

/-!  ## Watch mode: affected-file expansion (`findAffectedFiles`)

The textual import scan.  `node:path` is an external collaborator:
`path.dirname` and `path.relative` are abstracted as `dirnameFn` and
`relativeFn`.  File contents are `String.prototype.includes` substring
checks, implemented on character lists below. -/

/-- Does `needle` match at the head of `hay`? -/
def headMatch : List Char → List Char → Bool
  | [], _ => true
  | _ :: _, [] => false
  | a :: as, b :: bs => a == b && headMatch as bs

/-- `hay.includes(needle)`: does `needle` occur contiguously anywhere in
`hay`? -/
def hasSub (needle : List Char) : List Char → Bool
  | [] => needle.isEmpty
  | b :: bs => headMatch needle (b :: bs) || hasSub needle bs

/-- `content.includes(pattern)` on strings. -/
def containsSubstr (content pattern : String) : Bool :=
  hasSub pattern.toList content.toList

/-- `.replace(/\.ts$/, "")`: remove one trailing `.ts`. -/
def stripTsSuffix (cs : List Char) : List Char :=
  match cs.reverse with
  | 's' :: 't' :: '.' :: rest => rest.reverse
  | _ => cs

/-- `.replace(/\\/g, "/")`: normalize every backslash to a forward slash. -/
def normSlashes (cs : List Char) : List Char :=
  cs.map (fun ch => if ch == '\\' then '/' else ch)

/-- The module specifier `findAffectedFiles` computes for a changed file as
seen from `file`: `path.relative(path.dirname(file), changedFile)` with a
trailing `.ts` removed and backslashes normalized to slashes. -/
def importSpecifier (dirnameFn : String → String)
    (relativeFn : String → String → String) (file changedFile : String) : String :=
  let relativePath := relativeFn (dirnameFn file) changedFile
  String.mk (normSlashes (stripTsSuffix relativePath.toList))

/-- The three textual patterns `findAffectedFiles` looks for in a file's
content: `from '<p>'`, `from "./<p>"` and `import('<p>')`. -/
def importsChangedFile (dirnameFn : String → String)
    (relativeFn : String → String → String)
    (content file changedFile : String) : Bool :=
  let p := importSpecifier dirnameFn relativeFn file changedFile
  containsSubstr content ("from \x27" ++ p ++ "\x27") ||
  containsSubstr content ("from \x22./" ++ p ++ "\x22") ||
  containsSubstr content ("import(\x27" ++ p ++ "\x27)")

/-- `findAffectedFiles(changedFiles)`: start from the set of changed files,
then scan every tracked source file's content (`allFiles` is the
`getSourceFiles` enumeration paired with each file's readable content) for a
textual import of any changed file, adding matches; `Array.from` preserves
insertion order. -/
def findAffectedFiles (dirnameFn : String → String)
    (relativeFn : String → String → String)
    (allFiles : List (String × String)) (changedFiles : List String) : List String :=
  let affected := changedFiles.foldl addPending []
  allFiles.foldl
    (fun acc file =>
      changedFiles.foldl
        (fun acc2 changedFile =>
          if importsChangedFile dirnameFn relativeFn file.2 file.1 changedFile then
            addPending acc2 file.1
          else acc2)
        acc)
    affected

/-!  ## Watch mode: incremental rebuild (`incrementalRebuild`) -/

/-- The state of one watch iteration that `incrementalRebuild` can touch: the
artifact currently on disk (the previously emitted compilation result, or
`none` when nothing was emitted yet) and whether the coordinator is still
watching. -/
structure WatchIterState where
  artifact : Option CompilationResult
  watching : Bool
deriving Repr, DecidableEq

/-- `incrementalRebuild(changedFiles)`: expand to the affected set; when it is
empty, skip.  Otherwise `incrementalScan` + `compile` produce the merged
result (an external-compiler outcome, `Except.error` modelling a throw), and
`saveGeneratedCode` overwrites the artifact.  There is no call to
`validateCompilationResult` on this path, and the surrounding catch logs any
thrown error and returns, leaving the watcher alive. -/
def incrementalRebuild (mergedResult : Except String CompilationResult)
    (affectedFiles : List String) (st : WatchIterState) : WatchIterState :=
  if affectedFiles.isEmpty then st
  else
    match mergedResult with
    | Except.ok result => { st with artifact := some result }
    | Except.error _ => st

/-!  ## Watch mode: debounce duration plumbing -/

/-- The options interface of `buildDI` (`BuildDIOptions`): note it has no
debounce field. -/
structure BuildDIOptions where
  sourceDir : Option String
  outputFile : Option String
  tsconfig : Option String
  watch : Option Bool
  validate : Option Bool
deriving Repr, DecidableEq

/-- The `config` object `buildDI` builds from its options and hands to
`setupWatchMode`. -/
structure BuildDIConfig where
  sourceDir : String
  outputFile : String
  tsconfig : String
  watch : Bool
  validate : Bool
deriving Repr, DecidableEq

/-- The defaulting at the top of `buildDI`. -/
def buildDIConfig (o : BuildDIOptions) : BuildDIConfig :=
  { sourceDir := o.sourceDir.getD "src"
    outputFile := o.outputFile.getD "src/generated/di-container.ts"
    tsconfig := o.tsconfig.getD "tsconfig.json"
    watch := o.watch.getD false
    validate := o.validate.getD true }

/-- The options of the `di:watch` command: the five `build-di` options plus
the `--debounce <ms>` string option, which defaults to `"150"`. -/
structure WatchDICommandOptions where
  sourceDir : Option String
  outputFile : Option String
  tsconfig : Option String
  validate : Option Bool
  debounce : String
deriving Repr, DecidableEq

/-- The `di:watch` action: `buildDI({ ...options, watch: true })`.  `buildDI`
consumes only the `BuildDIOptions` fields, so the spread drops `debounce`
here. -/
def watchCommandBuildOptions (o : WatchDICommandOptions) : BuildDIOptions :=
  { sourceDir := o.sourceDir
    outputFile := o.outputFile
    tsconfig := o.tsconfig
    watch := some true
    validate := o.validate }

/-- The debounce window `setupWatchMode` arms for `debouncedRebuild`: the
literal `150` in `setTimeout(..., 150)`, whatever the config says. -/
def setupWatchModeDebounceMs (_config : BuildDIConfig) : Nat :=
  150

/-- The debounce window in effect for a `di:watch` invocation with the given
options. -/
def watchCommandDebounceMs (o : WatchDICommandOptions) : Nat :=
  setupWatchModeDebounceMs (buildDIConfig (watchCommandBuildOptions o))

/-!  ## Watch mode: scheduling of rebuilds

An interleaving model of the coordinator's event loop.  The async debounce
callback awaits inside, so further timer callbacks can run before an earlier
`incrementalRebuild` resolves; the source has no in-flight guard.
`changedOracle` abstracts the `hasFileChanged` filter. -/

/-- Coordinator scheduling state: the pending set, whether a debounce timer is
armed, how many `incrementalRebuild` calls are currently in flight, and how
many were ever started. -/
structure CoordState where
  pending : List String
  timerArmed : Bool
  inFlight : Nat
  startedRebuilds : Nat
deriving Repr, DecidableEq

/-- Events of the coordinator's event loop: a change notification
(`debouncedRebuild`), a debounce-timer expiry (the `setTimeout` callback
starting), and the completion of one in-flight `incrementalRebuild`. -/
inductive CoordEvent where
  | notify (p : String)
  | timerFire
  | rebuildFinish
deriving Repr, DecidableEq

/-- One event-loop step.  `notify` adds to `pendingChanges` and (re)arms the
timer (`clearTimeout` of an already-fired timer is a no-op, so an in-flight
rebuild is unaffected).  `timerFire` runs the debounce callback: it drains the
pending set, filters it, and starts a rebuild whenever the filtered batch is
non-empty — with no check of `inFlight`.  `rebuildFinish` resolves one
in-flight rebuild. -/
def coordStep (changedOracle : String → Bool) (s : CoordState) :
    CoordEvent → CoordState
  | CoordEvent.notify p =>
    { s with pending := addPending s.pending p, timerArmed := true }
  | CoordEvent.timerFire =>
    if s.timerArmed then
      let actual := s.pending.filter changedOracle
      if actual.isEmpty then { s with pending := [], timerArmed := false }
      else
        { s with
          pending := []
          timerArmed := false
          inFlight := s.inFlight + 1
          startedRebuilds := s.startedRebuilds + 1 }
    else s
  | CoordEvent.rebuildFinish =>
    if 0 < s.inFlight then { s with inFlight := s.inFlight - 1 } else s

/-- Run the coordinator over a sequence of event-loop events. -/
def coordRun (changedOracle : String → Bool) (init : CoordState)
    (events : List CoordEvent) : CoordState :=
  events.foldl (coordStep changedOracle) init

/-!  ## Specification-side graph notions

Used to state acyclicity and chain properties about the dependency graph;
compared against the behaviour of the source-derived definitions above. -/

/-- `l'` extends `l` by appending (the JS arrays `errors`, `cycles` and the
`visited` set only ever grow at the end). -/
def Extends (l l' : List α) : Prop :=
  ∃ t, l' = l ++ t

/-- A token list is a chain of dependency edges, each consecutive pair being
an edge of the provider graph. -/
def edgeChainB (providers : List Provider) : List String → Bool
  | a :: b :: rest => edgeB providers a b && edgeChainB providers (b :: rest)
  | _ => true

/-- The provider graph has no dependency cycle: no token reaches itself
through one or more dependency edges. -/
def Acyclic (providers : List Provider) : Prop :=
  ∀ t, ¬ Relation.TransGen (edgeP providers) t t

/-- Lists built by only ever appending an element whose successors are already
present — the order in which three-color DFS blackens nodes.  Such a list can
contain no element that reaches itself. -/
inductive TopoList (f : String → List String) : List String → Prop
  | nil : TopoList f []
  | snoc (l : List String) (t : String) :
      TopoList f l → (∀ d ∈ f t, d ∈ l) → TopoList f (l ++ [t])

/-!  ## Basic helper lemmas -/

theorem ext_refl (l : List α) : Extends l l :=
  ⟨[], by simp⟩

theorem ext_trans {l m n : List α} (h1 : Extends l m) (h2 : Extends m n) :
    Extends l n := by
  obtain ⟨t, rfl⟩ := h1
  obtain ⟨u, rfl⟩ := h2
  exact ⟨t ++ u, by simp⟩

theorem ext_append (l t : List α) : Extends l (l ++ t) :=
  ⟨t, rfl⟩

theorem mem_of_ext {l l' : List α} {a : α} (h : Extends l l') (ha : a ∈ l) :
    a ∈ l' := by
  obtain ⟨t, rfl⟩ := h
  exact List.mem_append_left t ha

theorem ext_sandwich {l m n : List α} (h1 : Extends l m) (h2 : Extends m n)
    (hn : n = l) : m = l := by
  obtain ⟨t, rfl⟩ := h1
  obtain ⟨u, hu⟩ := h2
  have hlen : l.length = l.length + (t.length + u.length) := by
    have := congrArg List.length hu
    simpa [Nat.add_assoc] using this.symm.trans (congrArg List.length hn)
  have ht : t.length = 0 := by omega
  simp [List.length_eq_zero.mp ht]

/-- Filtering with a pointwise-stronger predicate yields at most as many
elements. -/
theorem filter_length_mono {l : List α} {p q : α → Bool}
    (h : ∀ a ∈ l, q a = true → p a = true) :
    (l.filter q).length ≤ (l.filter p).length := by
  induction l with
  | nil => simp
  | cons x xs ih =>
    have hx := h x (by simp)
    have ihx : (xs.filter q).length ≤ (xs.filter p).length :=
      ih (fun a ha => h a (List.mem_cons_of_mem x ha))
    by_cases hq : q x = true
    · simp [List.filter_cons, hq, hx hq]
      omega
    · simp only [List.filter_cons]
      cases hp : p x <;> simp [hq] <;> omega

/-- Filtering with a pointwise-stronger predicate that some element fails
while passing the weaker one yields strictly fewer elements. -/
theorem filter_length_strict {l : List α} {p q : α → Bool} (a0 : α)
    (h : ∀ a ∈ l, q a = true → p a = true)
    (ha0 : a0 ∈ l) (hp0 : p a0 = true) (hq0 : q a0 = false) :
    (l.filter q).length < (l.filter p).length := by
  induction l with
  | nil => simp at ha0
  | cons x xs ih =>
    have hx := h x (by simp)
    have hmono : (xs.filter q).length ≤ (xs.filter p).length :=
      filter_length_mono (fun a ha => h a (List.mem_cons_of_mem x ha))
    rcases List.mem_cons.mp ha0 with rfl | ha0'
    · simp [List.filter_cons, hp0, hq0]
      omega
    · have ihx := ih (fun a ha => h a (List.mem_cons_of_mem x ha)) ha0'
      by_cases hq : q x = true
      · simp [List.filter_cons, hq, hx hq]
        omega
      · simp only [List.filter_cons]
        cases hp : p x <;> simp [hq] <;> omega

/-!  ## Edge-chain lemmas -/

theorem edgeChainB_tail {providers : List Provider} {x : String} {rest : List String}
    (h : edgeChainB providers (x :: rest) = true) :
    edgeChainB providers rest = true := by
  cases rest with
  | nil => simp [edgeChainB]
  | cons y ys =>
    simp only [edgeChainB, Bool.and_eq_true] at h
    exact h.2

theorem edgeChainB_snoc {providers : List Provider} {d : String} :
    ∀ (l : List String) (a : String), edgeChainB providers (l ++ [a]) = true →
      edgeB providers a d = true → edgeChainB providers ((l ++ [a]) ++ [d]) = true := by
  intro l
  induction l with
  | nil =>
    intro a _ hd
    simp [edgeChainB, hd]
  | cons x xs ih =>
    intro a hch hd
    cases xs with
    | nil =>
      simp only [edgeChainB, List.cons_append, List.nil_append,
        Bool.and_eq_true] at hch ⊢
      exact ⟨hch.1, by simp [edgeChainB, hd]⟩
    | cons y ys =>
      simp only [List.cons_append, edgeChainB, Bool.and_eq_true] at hch ⊢
      refine ⟨hch.1, ?_⟩
      have := ih a (by simpa using hch.2) hd
      simpa using this

/-- From the head of a chain one reaches, in one or more edges, every later
element. -/
theorem edgeChainB_reach {providers : List Provider} :
    ∀ {l : List String} {a b : String},
      edgeChainB providers (a :: l) = true → b ∈ l →
      Relation.TransGen (edgeP providers) a b := by
  intro l
  induction l with
  | nil => intro a b _ hb; simp at hb
  | cons c cs ih =>
    intro a b hch hb
    simp only [edgeChainB, Bool.and_eq_true] at hch
    rcases List.mem_cons.mp hb with rfl | hb'
    · exact Relation.TransGen.single hch.1
    · exact Relation.TransGen.head hch.1 (ih hch.2 hb')

/-- A chain whose last element already occurred earlier closes a dependency
cycle. -/
theorem edgeChainB_cycle {providers : List Provider} :
    ∀ {l : List String} {t : String},
      edgeChainB providers (l ++ [t]) = true → t ∈ l →
      Relation.TransGen (edgeP providers) t t := by
  intro l
  induction l with
  | nil => intro t _ ht; simp at ht
  | cons x xs ih =>
    intro t hch ht
    rcases List.mem_cons.mp ht with rfl | ht'
    · exact edgeChainB_reach (by simpa using hch) (by simp)
    · exact ih (edgeChainB_tail (by simpa using hch)) ht'

/-!  ## TopoList lemmas -/

theorem topoList_closed {f : String → List String} :
    ∀ {l : List String}, TopoList f l → ∀ a ∈ l, ∀ d ∈ f a, d ∈ l := by
  intro l h
  induction h with
  | nil => simp
  | snoc m t hm hsucc ih =>
    intro a ha d hd
    rcases List.mem_append.mp ha with ha' | ha'
    · exact List.mem_append_left _ (ih a ha' d hd)
    · have : a = t := by simpa using ha'
      subst this
      exact List.mem_append_left _ (hsucc d hd)

/-- Head decomposition of a transitive closure step. -/
theorem transGen_head_cases {r : String → String → Prop} {a b : String}
    (h : Relation.TransGen r a b) : r a b ∨ ∃ c, r a c ∧ Relation.TransGen r c b := by
  induction h using Relation.TransGen.head_induction_on with
  | base hs => exact Or.inl hs
  | ih hs htg _ => exact Or.inr ⟨_, hs, htg⟩

theorem topoList_reach {providers : List Provider} {l : List String}
    (h : TopoList (succs providers) l) {a b : String}
    (hr : Relation.TransGen (edgeP providers) a b) (ha : a ∈ l) : b ∈ l := by
  induction hr with
  | single hs =>
    exact topoList_closed h a ha _ (by simpa [edgeP, edgeB, List.elem_iff] using hs)
  | tail _ hs ih =>
    exact topoList_closed h _ ih _ (by simpa [edgeP, edgeB, List.elem_iff] using hs)

/-- No element of a `TopoList` reaches itself through dependency edges. -/
theorem topoList_no_self {providers : List Provider} :
    ∀ {l : List String}, TopoList (succs providers) l →
      ∀ a ∈ l, ¬ Relation.TransGen (edgeP providers) a a := by
  intro l h
  induction h with
  | nil => simp
  | snoc m t hm hsucc ih =>
    intro a ha hcyc
    rcases List.mem_append.mp ha with ha' | ha'
    · exact ih a ha' hcyc
    · have hat : a = t := by simpa using ha'
      subst hat
      by_cases htm : a ∈ m
      · exact ih a htm hcyc
      · rcases transGen_head_cases hcyc with hs | ⟨c, hs, htg⟩
        · exact htm (hsucc a (by simpa [edgeP, edgeB, List.elem_iff] using hs))
        · have hcm : c ∈ m := hsucc c (by simpa [edgeP, edgeB, List.elem_iff] using hs)
          exact htm (topoList_reach hm htg hcm)

/-!  ## Recursion-depth accounting for `checkCircular` -/

theorem contains_false_iff (l : List String) (a : String) :
    l.contains a = false ↔ a ∉ l := by
  rw [← Bool.not_eq_true, List.elem_iff]

/-- The number of providers whose token is not yet marked as on the current
path: an upper bound for the remaining recursion depth of `checkCircular`. -/
def freshBound (providers : List Provider) (visiting : List String) : Nat :=
  (providers.filter (fun p => !(visiting.contains p.token))).length

theorem findProvider_eq_find? (providers : List Provider) (token : String) :
    findProvider providers token = List.find? (fun q => q.token == token) providers :=
  rfl

theorem freshBound_push {providers : List Provider} {visiting : List String}
    {token : String} {p : Provider}
    (hf : findProvider providers token = some p)
    (hnv : visiting.contains token = false) :
    freshBound providers (visiting ++ [token]) < freshBound providers visiting := by
  rw [findProvider_eq_find?] at hf
  have hmem : p ∈ providers := List.mem_of_find?_eq_some hf
  have hbeq := List.find?_some hf
  have htok : p.token = token := eq_of_beq hbeq
  simp only [freshBound]
  apply filter_length_strict p
  · intro a _ hq
    simp only [Bool.not_eq_true'] at hq ⊢
    rw [contains_false_iff] at hq ⊢
    intro hmem2
    exact hq (List.mem_append_left _ hmem2)
  · exact hmem
  · simp only [Bool.not_eq_true', htok]
    exact hnv
  · have hc : (visiting ++ [token]).contains token = true :=
      List.elem_iff.mpr (List.mem_append_right _ (by simp))
    simp [htok, hc]

/-!  ## Branch equations for `checkCircular` and `ccDeps` -/

theorem ccDeps_nil (visit : String → CCState → Bool × CCState) (s : CCState) :
    ccDeps visit [] s = (false, s) :=
  rfl

theorem ccDeps_cons (visit : String → CCState → Bool × CCState)
    (d : String) (rest : List String) (s : CCState) :
    ccDeps visit (d :: rest) s =
      (if (visit d s).1 then visit d s else ccDeps visit rest (visit d s).2) :=
  rfl

theorem checkCircular_zero (providers : List Provider) (token : String)
    (path : List String) (s : CCState) :
    checkCircular providers 0 token path s = (false, s) :=
  rfl

theorem checkCircular_hit (providers : List Provider) (fuel : Nat)
    (token : String) (path : List String) (s : CCState)
    (h1 : s.visiting.contains token = true) :
    checkCircular providers (fuel + 1) token path s =
      (true,
        { s with
          errors := s.errors ++ [cycleMessage (path ++ [token])]
          cycles := s.cycles ++ [path ++ [token]] }) := by
  simp only [checkCircular]
  rw [if_pos h1]

theorem checkCircular_done (providers : List Provider) (fuel : Nat)
    (token : String) (path : List String) (s : CCState)
    (h1 : s.visiting.contains token = false)
    (h2 : s.visited.contains token = true) :
    checkCircular providers (fuel + 1) token path s = (false, s) := by
  simp only [checkCircular]
  rw [if_neg (by simp only [h1]; exact Bool.false_ne_true), if_pos h2]

theorem checkCircular_none (providers : List Provider) (fuel : Nat)
    (token : String) (path : List String) (s : CCState)
    (h1 : s.visiting.contains token = false)
    (h2 : s.visited.contains token = false)
    (hfp : findProvider providers token = none) :
    checkCircular providers (fuel + 1) token path s =
      (false,
        { s with
          visiting := (s.visiting ++ [token]).erase token
          visited := s.visited ++ [token] }) := by
  simp only [checkCircular]
  rw [if_neg (by simp only [h1]; exact Bool.false_ne_true),
    if_neg (by simp only [h2]; exact Bool.false_ne_true), hfp]
  rfl

theorem checkCircular_rec (providers : List Provider) (fuel : Nat)
    (token : String) (path : List String) (s : CCState) (provider : Provider)
    (h1 : s.visiting.contains token = false)
    (h2 : s.visited.contains token = false)
    (hfp : findProvider providers token = some provider) :
    checkCircular providers (fuel + 1) token path s =
      (if (ccDeps (fun dep s2 => checkCircular providers fuel dep (path ++ [token]) s2)
            provider.dependencies { s with visiting := s.visiting ++ [token] }).1 then
        (true,
          (ccDeps (fun dep s2 => checkCircular providers fuel dep (path ++ [token]) s2)
            provider.dependencies { s with visiting := s.visiting ++ [token] }).2)
      else
        (false,
          { (ccDeps (fun dep s2 => checkCircular providers fuel dep (path ++ [token]) s2)
              provider.dependencies { s with visiting := s.visiting ++ [token] }).2 with
            visiting := (ccDeps (fun dep s2 => checkCircular providers fuel dep (path ++ [token]) s2)
              provider.dependencies { s with visiting := s.visiting ++ [token] }).2.visiting.erase token
            visited := (ccDeps (fun dep s2 => checkCircular providers fuel dep (path ++ [token]) s2)
              provider.dependencies { s with visiting := s.visiting ++ [token] }).2.visited ++ [token] })) := by
  simp only [checkCircular]
  rw [if_neg (by simp only [h1]; exact Bool.false_ne_true),
    if_neg (by simp only [h2]; exact Bool.false_ne_true), hfp]

/-!  ## Monotonicity of the circular check

The `errors` and `cycles` arrays and the `visited` set only grow (by
appending), and every circular-dependency error grows `errors` and `cycles`
together. -/

theorem ccDeps_mono (visit : String → CCState → Bool × CCState)
    (hv : ∀ d s,
      Extends s.errors (visit d s).2.errors ∧
      Extends s.cycles (visit d s).2.cycles ∧
      Extends s.visited (visit d s).2.visited ∧
      (visit d s).2.errors.length + s.cycles.length =
        (visit d s).2.cycles.length + s.errors.length) :
    ∀ (deps : List String) (s : CCState),
      Extends s.errors (ccDeps visit deps s).2.errors ∧
      Extends s.cycles (ccDeps visit deps s).2.cycles ∧
      Extends s.visited (ccDeps visit deps s).2.visited ∧
      (ccDeps visit deps s).2.errors.length + s.cycles.length =
        (ccDeps visit deps s).2.cycles.length + s.errors.length := by
  intro deps
  induction deps with
  | nil =>
    intro s
    rw [ccDeps_nil]
    exact ⟨ext_refl _, ext_refl _, ext_refl _, by
      show s.errors.length + s.cycles.length = s.cycles.length + s.errors.length
      omega⟩
  | cons d rest ih =>
    intro s
    rw [ccDeps_cons]
    rcases hv d s with ⟨he1, hc1, hvv1, hd1⟩
    cases hb : (visit d s).1 with
    | true =>
      rw [if_pos rfl]
      exact ⟨he1, hc1, hvv1, hd1⟩
    | false =>
      rw [if_neg (by simp)]
      rcases ih (visit d s).2 with ⟨he2, hc2, hvv2, hd2⟩
      exact ⟨ext_trans he1 he2, ext_trans hc1 hc2, ext_trans hvv1 hvv2, by omega⟩

theorem checkCircular_mono (providers : List Provider) :
    ∀ (fuel : Nat) (token : String) (path : List String) (s : CCState),
      Extends s.errors ((checkCircular providers fuel token path s).2).errors ∧
      Extends s.cycles ((checkCircular providers fuel token path s).2).cycles ∧
      Extends s.visited ((checkCircular providers fuel token path s).2).visited ∧
      ((checkCircular providers fuel token path s).2).errors.length + s.cycles.length =
        ((checkCircular providers fuel token path s).2).cycles.length + s.errors.length := by
  intro fuel
  induction fuel with
  | zero =>
    intro token path s
    rw [checkCircular_zero]
    exact ⟨ext_refl _, ext_refl _, ext_refl _, by
      show s.errors.length + s.cycles.length = s.cycles.length + s.errors.length
      omega⟩
  | succ fuel ih =>
    intro token path s
    cases h1 : s.visiting.contains token with
    | true =>
      rw [checkCircular_hit providers fuel token path s h1]
      refine ⟨ext_append _ _, ext_append _ _, ext_refl _, ?_⟩
      show (s.errors ++ [cycleMessage (path ++ [token])]).length + s.cycles.length =
        (s.cycles ++ [path ++ [token]]).length + s.errors.length
      simp only [List.length_append, List.length_singleton]
      omega
    | false =>
      cases h2 : s.visited.contains token with
      | true =>
        rw [checkCircular_done providers fuel token path s h1 h2]
        exact ⟨ext_refl _, ext_refl _, ext_refl _, by
          show s.errors.length + s.cycles.length = s.cycles.length + s.errors.length
          omega⟩
      | false =>
        cases hfp : findProvider providers token with
        | none =>
          rw [checkCircular_none providers fuel token path s h1 h2 hfp]
          exact ⟨ext_refl _, ext_refl _, ext_append _ _, by
            show s.errors.length + s.cycles.length = s.cycles.length + s.errors.length
            omega⟩
        | some provider =>
          rw [checkCircular_rec providers fuel token path s provider h1 h2 hfp]
          have hdeps := ccDeps_mono
            (fun dep s2 => checkCircular providers fuel dep (path ++ [token]) s2)
            (fun d s2 => ih d (path ++ [token]) s2)
            provider.dependencies
            { s with visiting := s.visiting ++ [token] }
          rcases hdeps with ⟨he, hc, hvv, hd⟩
          cases hb : (ccDeps
              (fun dep s2 => checkCircular providers fuel dep (path ++ [token]) s2)
              provider.dependencies
              { s with visiting := s.visiting ++ [token] }).1 with
          | true =>
            simp only [hb, if_true]
            exact ⟨he, hc, hvv, hd⟩
          | false =>
            simp only [hb, Bool.false_eq_true, if_false]
            exact ⟨he, hc, ext_trans hvv (ext_append _ _), by simpa using hd⟩

/-!  ## The circular check on acyclic graphs

On an acyclic provider graph a `checkCircular` call started with the
`visiting` set equal to the current path, and enough fuel, reports nothing:
it returns `false` and restores `visiting`, `errors` and `cycles`
exactly. -/

theorem erase_append_self {l : List String} {a : String} (h : a ∉ l) :
    (l ++ [a]).erase a = l := by
  rw [List.erase_append_right _ h, List.erase_cons_head, List.append_nil]

theorem ccDeps_clean (visit : String → CCState → Bool × CCState) (V : List String) :
    ∀ (deps : List String),
      (∀ d ∈ deps, ∀ s : CCState, s.visiting = V →
        ((visit d s).1 = false ∧ (visit d s).2.visiting = s.visiting ∧
         (visit d s).2.errors = s.errors ∧ (visit d s).2.cycles = s.cycles)) →
      ∀ s : CCState, s.visiting = V →
        ((ccDeps visit deps s).1 = false ∧ (ccDeps visit deps s).2.visiting = s.visiting ∧
         (ccDeps visit deps s).2.errors = s.errors ∧ (ccDeps visit deps s).2.cycles = s.cycles) := by
  intro deps
  induction deps with
  | nil =>
    intro _ s _
    rw [ccDeps_nil]
    exact ⟨rfl, rfl, rfl, rfl⟩
  | cons d rest ih =>
    intro hv s hs
    rw [ccDeps_cons]
    rcases hv d (by simp) s hs with ⟨hb, hvv, he, hc⟩
    rw [hb, if_neg Bool.false_ne_true]
    rcases ih (fun d2 hd2 => hv d2 (List.mem_cons_of_mem d hd2)) (visit d s).2
      (by rw [hvv, hs]) with ⟨hb2, hvv2, he2, hc2⟩
    exact ⟨hb2, by rw [hvv2, hvv], by rw [he2, he], by rw [hc2, hc]⟩

theorem checkCircular_acyclic (providers : List Provider)
    (hacy : Acyclic providers) :
    ∀ (fuel : Nat) (token : String) (path : List String) (s : CCState),
      s.visiting = path →
      edgeChainB providers (path ++ [token]) = true →
      freshBound providers s.visiting + 1 ≤ fuel →
      ((checkCircular providers fuel token path s).1 = false ∧
       (checkCircular providers fuel token path s).2.visiting = s.visiting ∧
       (checkCircular providers fuel token path s).2.errors = s.errors ∧
       (checkCircular providers fuel token path s).2.cycles = s.cycles) := by
  intro fuel
  induction fuel with
  | zero =>
    intro token path s _ _ hfuel
    exact absurd hfuel (by omega)
  | succ fuel ih =>
    intro token path s hvis hchain hfuel
    cases h1 : s.visiting.contains token with
    | true =>
      exfalso
      have hmem : token ∈ path := by
        rw [← hvis]
        exact List.elem_iff.mp h1
      exact hacy token (edgeChainB_cycle hchain hmem)
    | false =>
      cases h2 : s.visited.contains token with
      | true =>
        rw [checkCircular_done providers fuel token path s h1 h2]
        exact ⟨rfl, rfl, rfl, rfl⟩
      | false =>
        cases hfp : findProvider providers token with
        | none =>
          rw [checkCircular_none providers fuel token path s h1 h2 hfp]
          exact ⟨rfl, erase_append_self ((contains_false_iff _ _).mp h1), rfl, rfl⟩
        | some provider =>
          rw [checkCircular_rec providers fuel token path s provider h1 h2 hfp]
          have hvd : ∀ d ∈ provider.dependencies, ∀ s2 : CCState,
              s2.visiting = path ++ [token] →
              ((checkCircular providers fuel d (path ++ [token]) s2).1 = false ∧
               (checkCircular providers fuel d (path ++ [token]) s2).2.visiting = s2.visiting ∧
               (checkCircular providers fuel d (path ++ [token]) s2).2.errors = s2.errors ∧
               (checkCircular providers fuel d (path ++ [token]) s2).2.cycles = s2.cycles) := by
            intro d hd s2 hs2
            have hedge : edgeB providers token d = true := by
              simp only [edgeB, succs, hfp]
              exact List.elem_iff.mpr hd
            have hchain2 : edgeChainB providers ((path ++ [token]) ++ [d]) = true :=
              edgeChainB_snoc path token hchain hedge
            have hfuel2 : freshBound providers s2.visiting + 1 ≤ fuel := by
              have hlt : freshBound providers (s.visiting ++ [token]) <
                  freshBound providers s.visiting :=
                freshBound_push hfp h1
              rw [hs2, ← hvis]
              omega
            exact ih d (path ++ [token]) s2 hs2 hchain2 hfuel2
          rcases ccDeps_clean
              (fun dep s2 => checkCircular providers fuel dep (path ++ [token]) s2)
              (path ++ [token]) provider.dependencies hvd
              { s with visiting := s.visiting ++ [token] } (by simp [hvis])
            with ⟨hb, hvv, he, hc⟩
          rw [hb, if_neg Bool.false_ne_true]
          refine ⟨rfl, ?_, he, hc⟩
          show ((ccDeps (fun dep s2 => checkCircular providers fuel dep (path ++ [token]) s2)
              provider.dependencies { s with visiting := s.visiting ++ [token] }).2.visiting).erase
              token = s.visiting
          rw [hvv]
          exact erase_append_self ((contains_false_iff _ _).mp h1)

/-!  ## The circular check when nothing is reported

When a `checkCircular` call leaves `cycles` unchanged, it returns `false`,
restores `visiting`, and blackens its token into `visited` only after all its
successors — so `visited` remains a `TopoList`. -/

theorem ccDeps_complete (providers : List Provider)
    (visit : String → CCState → Bool × CCState) (V : List String)
    (hmono : ∀ d s,
      Extends s.errors (visit d s).2.errors ∧
      Extends s.cycles (visit d s).2.cycles ∧
      Extends s.visited (visit d s).2.visited ∧
      (visit d s).2.errors.length + s.cycles.length =
        (visit d s).2.cycles.length + s.errors.length) :
    ∀ (deps : List String),
      (∀ d ∈ deps, ∀ s : CCState, s.visiting = V →
        TopoList (succs providers) s.visited →
        (visit d s).2.cycles = s.cycles →
        ((visit d s).1 = false ∧ (visit d s).2.visiting = s.visiting ∧
         Extends s.visited (visit d s).2.visited ∧ d ∈ (visit d s).2.visited ∧
         TopoList (succs providers) (visit d s).2.visited)) →
      ∀ s : CCState, s.visiting = V → TopoList (succs providers) s.visited →
        (ccDeps visit deps s).2.cycles = s.cycles →
        ((ccDeps visit deps s).1 = false ∧
         (ccDeps visit deps s).2.visiting = s.visiting ∧
         Extends s.visited (ccDeps visit deps s).2.visited ∧
         (∀ d ∈ deps, d ∈ (ccDeps visit deps s).2.visited) ∧
         TopoList (succs providers) (ccDeps visit deps s).2.visited) := by
  intro deps
  induction deps with
  | nil =>
    intro _ s _ htopo _
    rw [ccDeps_nil]
    exact ⟨rfl, rfl, ext_refl _, by simp, htopo⟩
  | cons d rest ih =>
    intro hv s hs htopo hcyc
    rw [ccDeps_cons] at hcyc ⊢
    cases hb : (visit d s).1 with
    | true =>
      rw [hb] at hcyc
      rw [if_pos rfl] at hcyc ⊢
      rcases hv d (by simp) s hs htopo hcyc with ⟨hfalse, _⟩
      rw [hb] at hfalse
      exact absurd hfalse (by simp)
    | false =>
      rw [hb] at hcyc
      rw [if_neg Bool.false_ne_true] at hcyc ⊢
      have hc1 : Extends s.cycles (visit d s).2.cycles := (hmono d s).2.1
      have hc2 : Extends (visit d s).2.cycles
          (ccDeps visit rest (visit d s).2).2.cycles :=
        (ccDeps_mono visit hmono rest (visit d s).2).2.1
      have hmid : (visit d s).2.cycles = s.cycles := ext_sandwich hc1 hc2 hcyc
      rcases hv d (by simp) s hs htopo hmid with ⟨_, hvv1, hext1, hd1, htopo1⟩
      have hcyc2 : (ccDeps visit rest (visit d s).2).2.cycles = (visit d s).2.cycles := by
        rw [hmid, hcyc]
      rcases ih (fun d2 hd2 => hv d2 (List.mem_cons_of_mem d hd2)) (visit d s).2
          (by rw [hvv1, hs]) htopo1 hcyc2 with ⟨hb2, hvv2, hext2, hall2, htopo2⟩
      refine ⟨hb2, by rw [hvv2, hvv1], ext_trans hext1 hext2, ?_, htopo2⟩
      intro d2 hd2
      rcases List.mem_cons.mp hd2 with rfl | hd2'
      · exact mem_of_ext hext2 hd1
      · exact hall2 d2 hd2'

theorem checkCircular_complete (providers : List Provider) :
    ∀ (fuel : Nat) (token : String) (path : List String) (s : CCState),
      s.visiting = path →
      freshBound providers s.visiting + 1 ≤ fuel →
      TopoList (succs providers) s.visited →
      (checkCircular providers fuel token path s).2.cycles = s.cycles →
      ((checkCircular providers fuel token path s).1 = false ∧
       (checkCircular providers fuel token path s).2.visiting = s.visiting ∧
       Extends s.visited (checkCircular providers fuel token path s).2.visited ∧
       token ∈ (checkCircular providers fuel token path s).2.visited ∧
       TopoList (succs providers) (checkCircular providers fuel token path s).2.visited) := by
  intro fuel
  induction fuel with
  | zero =>
    intro token path s _ hfuel _ _
    exact absurd hfuel (by omega)
  | succ fuel ih =>
    intro token path s hvis hfuel htopo hcyc
    cases h1 : s.visiting.contains token with
    | true =>
      exfalso
      rw [checkCircular_hit providers fuel token path s h1] at hcyc
      have := congrArg List.length hcyc
      simp at this
    | false =>
      cases h2 : s.visited.contains token with
      | true =>
        rw [checkCircular_done providers fuel token path s h1 h2]
        exact ⟨rfl, rfl, ext_refl _, List.elem_iff.mp h2, htopo⟩
      | false =>
        cases hfp : findProvider providers token with
        | none =>
          rw [checkCircular_none providers fuel token path s h1 h2 hfp]
          refine ⟨rfl, erase_append_self ((contains_false_iff _ _).mp h1),
            ext_append _ _, by simp, ?_⟩
          refine TopoList.snoc s.visited token htopo ?_
          intro d hd
          simp [succs, hfp] at hd
        | some provider =>
          rw [checkCircular_rec providers fuel token path s provider h1 h2 hfp] at hcyc ⊢
          have hmono2 : ∀ (d : String) (s2 : CCState),
              Extends s2.errors ((checkCircular providers fuel d (path ++ [token]) s2).2).errors ∧
              Extends s2.cycles ((checkCircular providers fuel d (path ++ [token]) s2).2).cycles ∧
              Extends s2.visited ((checkCircular providers fuel d (path ++ [token]) s2).2).visited ∧
              ((checkCircular providers fuel d (path ++ [token]) s2).2).errors.length + s2.cycles.length =
                ((checkCircular providers fuel d (path ++ [token]) s2).2).cycles.length + s2.errors.length :=
            fun d s2 => checkCircular_mono providers fuel d (path ++ [token]) s2
          have hvd : ∀ d ∈ provider.dependencies, ∀ s2 : CCState,
              s2.visiting = path ++ [token] →
              TopoList (succs providers) s2.visited →
              (checkCircular providers fuel d (path ++ [token]) s2).2.cycles = s2.cycles →
              ((checkCircular providers fuel d (path ++ [token]) s2).1 = false ∧
               (checkCircular providers fuel d (path ++ [token]) s2).2.visiting = s2.visiting ∧
               Extends s2.visited (checkCircular providers fuel d (path ++ [token]) s2).2.visited ∧
               d ∈ (checkCircular providers fuel d (path ++ [token]) s2).2.visited ∧
               TopoList (succs providers) (checkCircular providers fuel d (path ++ [token]) s2).2.visited) := by
            intro d _ s2 hs2 htopo2 hcyc2
            have hfuel2 : freshBound providers s2.visiting + 1 ≤ fuel := by
              have hlt : freshBound providers (s.visiting ++ [token]) <
                  freshBound providers s.visiting :=
                freshBound_push hfp h1
              rw [hs2, ← hvis]
              omega
            exact ih d (path ++ [token]) s2 hs2 hfuel2 htopo2 hcyc2
          cases hb : (ccDeps
              (fun dep s2 => checkCircular providers fuel dep (path ++ [token]) s2)
              provider.dependencies { s with visiting := s.visiting ++ [token] }).1 with
          | true =>
            rw [hb] at hcyc
            rw [if_pos rfl] at hcyc
            rcases ccDeps_complete providers
                (fun dep s2 => checkCircular providers fuel dep (path ++ [token]) s2)
                (path ++ [token]) hmono2 provider.dependencies hvd
                { s with visiting := s.visiting ++ [token] } (by simp [hvis]) htopo hcyc
              with ⟨hfalse, _⟩
            rw [hb] at hfalse
            exact absurd hfalse (by simp)
          | false =>
            rw [hb] at hcyc
            rw [if_neg Bool.false_ne_true] at hcyc ⊢
            have hcycD : (ccDeps
                (fun dep s2 => checkCircular providers fuel dep (path ++ [token]) s2)
                provider.dependencies { s with visiting := s.visiting ++ [token] }).2.cycles =
                s.cycles := hcyc
            rcases ccDeps_complete providers
                (fun dep s2 => checkCircular providers fuel dep (path ++ [token]) s2)
                (path ++ [token]) hmono2 provider.dependencies hvd
                { s with visiting := s.visiting ++ [token] } (by simp [hvis]) htopo hcycD
              with ⟨_, hvvD, hextD, hallD, htopoD⟩
            refine ⟨rfl, ?_, ext_trans hextD (ext_append _ _), by simp, ?_⟩
            · show ((ccDeps (fun dep s2 => checkCircular providers fuel dep (path ++ [token]) s2)
                  provider.dependencies { s with visiting := s.visiting ++ [token] }).2.visiting).erase
                  token = s.visiting
              rw [hvvD]
              exact erase_append_self ((contains_false_iff _ _).mp h1)
            · refine TopoList.snoc _ token htopoD ?_
              intro d hd
              have hd' : d ∈ provider.dependencies := by
                simpa [succs, hfp] using hd
              exact hallD d hd'

/-!  ## The validation run as a whole -/

theorem freshBound_le (providers : List Provider) (visiting : List String) :
    freshBound providers visiting ≤ providers.length :=
  List.length_filter_le _ _

theorem validationFold_mono (providers : List Provider) :
    ∀ (roots : List Provider) (s : CCState),
      Extends s.errors (roots.foldl
        (fun s2 p => (checkCircular providers (providers.length + 1) p.token [] s2).2) s).errors ∧
      Extends s.cycles (roots.foldl
        (fun s2 p => (checkCircular providers (providers.length + 1) p.token [] s2).2) s).cycles ∧
      Extends s.visited (roots.foldl
        (fun s2 p => (checkCircular providers (providers.length + 1) p.token [] s2).2) s).visited ∧
      (roots.foldl
        (fun s2 p => (checkCircular providers (providers.length + 1) p.token [] s2).2) s).errors.length
          + s.cycles.length =
        (roots.foldl
          (fun s2 p => (checkCircular providers (providers.length + 1) p.token [] s2).2) s).cycles.length
          + s.errors.length := by
  intro roots
  induction roots with
  | nil =>
    intro s
    refine ⟨ext_refl _, ext_refl _, ext_refl _, ?_⟩
    rw [List.foldl_nil]
    omega
  | cons p rest ih =>
    intro s
    rw [List.foldl_cons]
    rcases checkCircular_mono providers (providers.length + 1) p.token [] s with
      ⟨he1, hc1, hvv1, hd1⟩
    rcases ih (checkCircular providers (providers.length + 1) p.token [] s).2 with
      ⟨he2, hc2, hvv2, hd2⟩
    exact ⟨ext_trans he1 he2, ext_trans hc1 hc2, ext_trans hvv1 hvv2, by omega⟩

theorem validationFold_acyclic (providers : List Provider) (hacy : Acyclic providers) :
    ∀ (roots : List Provider) (s : CCState), s.visiting = [] →
      ((roots.foldl
          (fun s2 p => (checkCircular providers (providers.length + 1) p.token [] s2).2) s).visiting = [] ∧
       (roots.foldl
          (fun s2 p => (checkCircular providers (providers.length + 1) p.token [] s2).2) s).errors = s.errors ∧
       (roots.foldl
          (fun s2 p => (checkCircular providers (providers.length + 1) p.token [] s2).2) s).cycles = s.cycles) := by
  intro roots
  induction roots with
  | nil =>
    intro s hvis
    exact ⟨hvis, rfl, rfl⟩
  | cons p rest ih =>
    intro s hvis
    rw [List.foldl_cons]
    rcases checkCircular_acyclic providers hacy (providers.length + 1) p.token [] s hvis
        (by show edgeChainB providers ([] ++ [p.token]) = true; rfl)
        (by have := freshBound_le providers s.visiting; omega) with
      ⟨_, hvv1, he1, hc1⟩
    rcases ih (checkCircular providers (providers.length + 1) p.token [] s).2
        (by rw [hvv1, hvis]) with ⟨hvv2, he2, hc2⟩
    exact ⟨hvv2, by rw [he2, he1], by rw [hc2, hc1]⟩

theorem validationFold_complete (providers : List Provider) :
    ∀ (roots : List Provider) (s : CCState), s.visiting = [] →
      TopoList (succs providers) s.visited →
      (roots.foldl
        (fun s2 p => (checkCircular providers (providers.length + 1) p.token [] s2).2) s).cycles = s.cycles →
      (Extends s.visited (roots.foldl
          (fun s2 p => (checkCircular providers (providers.length + 1) p.token [] s2).2) s).visited ∧
       TopoList (succs providers) (roots.foldl
          (fun s2 p => (checkCircular providers (providers.length + 1) p.token [] s2).2) s).visited ∧
       ∀ p ∈ roots, p.token ∈ (roots.foldl
          (fun s2 p => (checkCircular providers (providers.length + 1) p.token [] s2).2) s).visited) := by
  intro roots
  induction roots with
  | nil =>
    intro s _ htopo _
    exact ⟨ext_refl _, htopo, by simp⟩
  | cons p rest ih =>
    intro s hvis htopo hcyc
    rw [List.foldl_cons] at hcyc ⊢
    have hc1 : Extends s.cycles (checkCircular providers (providers.length + 1) p.token [] s).2.cycles :=
      (checkCircular_mono providers (providers.length + 1) p.token [] s).2.1
    have hc2 : Extends (checkCircular providers (providers.length + 1) p.token [] s).2.cycles
        (rest.foldl (fun s2 p => (checkCircular providers (providers.length + 1) p.token [] s2).2)
          (checkCircular providers (providers.length + 1) p.token [] s).2).cycles :=
      (validationFold_mono providers rest _).2.1
    have hmid : (checkCircular providers (providers.length + 1) p.token [] s).2.cycles = s.cycles :=
      ext_sandwich hc1 hc2 hcyc
    rcases checkCircular_complete providers (providers.length + 1) p.token [] s hvis
        (by have := freshBound_le providers s.visiting; omega) htopo hmid with
      ⟨_, hvv1, hext1, htok1, htopo1⟩
    have hcyc2 : (rest.foldl (fun s2 p => (checkCircular providers (providers.length + 1) p.token [] s2).2)
        (checkCircular providers (providers.length + 1) p.token [] s).2).cycles =
        (checkCircular providers (providers.length + 1) p.token [] s).2.cycles := by
      rw [hmid, hcyc]
    rcases ih (checkCircular providers (providers.length + 1) p.token [] s).2
        (by rw [hvv1, hvis]) htopo1 hcyc2 with ⟨hext2, htopo2, hall2⟩
    refine ⟨ext_trans hext1 hext2, htopo2, ?_⟩
    intro q hq
    rcases List.mem_cons.mp hq with rfl | hq'
    · exact mem_of_ext hext2 htok1
    · exact hall2 q hq'

theorem runValidation_acyclic (providers : List Provider) (hacy : Acyclic providers) :
    (runValidation providers).errors = missingErrors providers ∧
    (runValidation providers).cycles = [] := by
  rcases validationFold_acyclic providers hacy providers
      { errors := missingErrors providers, cycles := [], visiting := [], visited := [] } rfl with
    ⟨_, he, hc⟩
  exact ⟨he, hc⟩

theorem runValidation_errors_length (providers : List Provider) :
    (runValidation providers).errors.length =
      (missingErrors providers).length + (runValidation providers).cycles.length := by
  have hd := (validationFold_mono providers providers
    { errors := missingErrors providers, cycles := [], visiting := [], visited := [] }).2.2.2
  have he : (runValidation providers).errors.length + ([] : List (List String)).length =
      (runValidation providers).cycles.length + (missingErrors providers).length := hd
  simp at he
  omega

/-- If the validation run records no cycle, the dependency graph is acyclic:
the contrapositive of cycle detection. -/
theorem acyclic_of_no_cycles (providers : List Provider)
    (hnc : (runValidation providers).cycles = []) : Acyclic providers := by
  rcases validationFold_complete providers providers
      { errors := missingErrors providers, cycles := [], visiting := [], visited := [] } rfl
      TopoList.nil hnc with ⟨_, htopo, hall⟩
  intro t htg
  have hedge : ∃ c, edgeP providers t c := by
    rcases transGen_head_cases htg with hs | ⟨c, hs, _⟩
    · exact ⟨t, hs⟩
    · exact ⟨c, hs⟩
  rcases hedge with ⟨c, hc⟩
  have hfp : ∃ p0, findProvider providers t = some p0 := by
    cases hfp0 : findProvider providers t with
    | none =>
      exfalso
      rw [edgeP, edgeB, succs, hfp0] at hc
      simp at hc
    | some p0 => exact ⟨p0, rfl⟩
  rcases hfp with ⟨p0, hp0⟩
  have hmem0 : p0 ∈ providers := by
    rw [findProvider_eq_find?] at hp0
    exact List.mem_of_find?_eq_some hp0
  have htok0 : p0.token = t := by
    rw [findProvider_eq_find?] at hp0
    have hbeq := List.find?_some hp0
    exact eq_of_beq hbeq
  have hin : t ∈ (runValidation providers).visited := by
    rw [← htok0]
    exact hall p0 hmem0
  exact topoList_no_self htopo t hin htg

/-- The dependency graph is cyclic only if the validation run records at
least one cycle (and hence at least one error). -/
theorem cycles_nonempty_of_cyclic (providers : List Provider) {t : String}
    (htg : Relation.TransGen (edgeP providers) t t) :
    (runValidation providers).cycles ≠ [] := by
  intro hnc
  exact acyclic_of_no_cycles providers hnc t htg

/-!  ## Missing-dependency collection -/

theorem missingInner_mono (providers : List Provider) (pp : Provider) :
    ∀ (deps : List String) (errs : List String) (x : String), x ∈ errs →
      x ∈ deps.foldl
        (fun errs2 dep =>
          if providers.any (fun q => q.token == dep) then errs2
          else errs2 ++ [missingMessage pp.token dep])
        errs := by
  intro deps
  induction deps with
  | nil => intro errs x hx; exact hx
  | cons d rest ih =>
    intro errs x hx
    rw [List.foldl_cons]
    apply ih
    by_cases hany : providers.any (fun q => q.token == d) = true
    · rw [if_pos hany]; exact hx
    · rw [if_neg hany]; exact List.mem_append_left _ hx

theorem missingInner_add (providers : List Provider) (pp : Provider) {d : String}
    (hany : providers.any (fun q => q.token == d) = false) :
    ∀ (deps : List String) (errs : List String), d ∈ deps →
      missingMessage pp.token d ∈ deps.foldl
        (fun errs2 dep =>
          if providers.any (fun q => q.token == dep) then errs2
          else errs2 ++ [missingMessage pp.token dep])
        errs := by
  intro deps
  induction deps with
  | nil => intro errs hd; simp at hd
  | cons d0 rest ih =>
    intro errs hd
    rw [List.foldl_cons]
    rcases List.mem_cons.mp hd with rfl | hd'
    · rw [if_neg (by rw [hany]; exact Bool.false_ne_true)]
      exact missingInner_mono providers pp rest _ _ (List.mem_append_right _ (by simp))
    · exact ih _ hd'

theorem missingOuter_mono (providers : List Provider) :
    ∀ (l : List Provider) (errs : List String) (x : String), x ∈ errs →
      x ∈ l.foldl
        (fun errs3 pp =>
          pp.dependencies.foldl
            (fun errs2 dep =>
              if providers.any (fun q => q.token == dep) then errs2
              else errs2 ++ [missingMessage pp.token dep])
            errs3)
        errs := by
  intro l
  induction l with
  | nil => intro errs x hx; exact hx
  | cons pp rest ih =>
    intro errs x hx
    rw [List.foldl_cons]
    exact ih _ x (missingInner_mono providers pp pp.dependencies errs x hx)

/-- Every (provider, missing dependency) pair contributes its message to the
collected `errors`, regardless of how many other violations exist. -/
theorem missingErrors_mem {providers : List Provider} {p : Provider} {d : String}
    (hp : p ∈ providers) (hd : d ∈ p.dependencies)
    (hmiss : ∀ q ∈ providers, ¬(q.token = d)) :
    missingMessage p.token d ∈ missingErrors providers := by
  have hany : providers.any (fun q => q.token == d) = false := by
    cases h : providers.any (fun q => q.token == d) with
    | false => rfl
    | true =>
      exfalso
      rcases List.any_eq_true.mp h with ⟨q, hq, hbeq⟩
      exact hmiss q hq (eq_of_beq hbeq)
  have hgen : ∀ (l : List Provider) (errs : List String), p ∈ l →
      missingMessage p.token d ∈ l.foldl
        (fun errs3 pp =>
          pp.dependencies.foldl
            (fun errs2 dep =>
              if providers.any (fun q => q.token == dep) then errs2
              else errs2 ++ [missingMessage pp.token dep])
            errs3)
        errs := by
    intro l
    induction l with
    | nil => intro errs h; simp at h
    | cons p0 rest ih =>
      intro errs h
      rw [List.foldl_cons]
      rcases List.mem_cons.mp h with rfl | h'
      · exact missingOuter_mono providers rest _ _
          (missingInner_add providers p hany p.dependencies errs hd)
      · exact ih _ h'
  exact hgen providers [] hp

/-- When every declared dependency token has a provider, the
missing-dependency phase collects nothing. -/
theorem missingErrors_empty {providers : List Provider}
    (hok : ∀ p ∈ providers, ∀ d ∈ p.dependencies,
      ∃ q ∈ providers, q.token = d) :
    missingErrors providers = [] := by
  have hany : ∀ p ∈ providers, ∀ d ∈ p.dependencies,
      providers.any (fun q => q.token == d) = true := by
    intro p hp d hd
    rcases hok p hp d hd with ⟨q, hq, htok⟩
    exact List.any_eq_true.mpr ⟨q, hq, beq_iff_eq.mpr htok⟩
  have hinner : ∀ (pp : Provider), pp ∈ providers →
      ∀ (deps : List String), (∀ d ∈ deps, providers.any (fun q => q.token == d) = true) →
      ∀ errs, deps.foldl
        (fun errs2 dep =>
          if providers.any (fun q => q.token == dep) then errs2
          else errs2 ++ [missingMessage pp.token dep])
        errs = errs := by
    intro pp _ deps
    induction deps with
    | nil => intro _ errs; rfl
    | cons d rest ih =>
      intro hall errs
      rw [List.foldl_cons, if_pos (hall d (by simp))]
      exact ih (fun d2 hd2 => hall d2 (List.mem_cons_of_mem d hd2)) errs
  have hgen : ∀ (l : List Provider), (∀ pp ∈ l, pp ∈ providers) →
      ∀ errs, l.foldl
        (fun errs3 pp =>
          pp.dependencies.foldl
            (fun errs2 dep =>
              if providers.any (fun q => q.token == dep) then errs2
              else errs2 ++ [missingMessage pp.token dep])
            errs3)
        errs = errs := by
    intro l
    induction l with
    | nil => intro _ _; rfl
    | cons pp rest ih =>
      intro hl errs
      rw [List.foldl_cons,
        hinner pp (hl pp (by simp)) pp.dependencies (hany pp (hl pp (by simp))) errs]
      exact ih (fun q hq => hl q (List.mem_cons_of_mem pp hq)) errs
  exact hgen providers (fun _ h => h) []

/-!  ## Bridges between `runValidation` and `validateCompilationResult` -/

theorem validate_ok_iff (r : CompilationResult) :
    validateCompilationResult r = Except.ok () ↔ validationErrors r = [] := by
  unfold validateCompilationResult
  cases h : (validationErrors r).isEmpty with
  | true =>
    rw [if_pos rfl]
    simp [List.isEmpty_iff.mp h]
  | false =>
    rw [if_neg Bool.false_ne_true]
    constructor
    · intro hcontra; exact absurd hcontra (by simp)
    · intro he; rw [he] at h; simp at h

theorem validationErrors_mem_of_missing {r : CompilationResult} {p : Provider} {d : String}
    (hp : p ∈ r.providers) (hd : d ∈ p.dependencies)
    (hmiss : ∀ q ∈ r.providers, ¬(q.token = d)) :
    missingMessage p.token d ∈ validationErrors r := by
  have hinit : missingMessage p.token d ∈ missingErrors r.providers :=
    missingErrors_mem hp hd hmiss
  have hext : Extends (missingErrors r.providers) (runValidation r.providers).errors :=
    (validationFold_mono r.providers r.providers
      { errors := missingErrors r.providers, cycles := [], visiting := [], visited := [] }).1
  exact mem_of_ext hext hinit

/-!  ## File-hash cache lemmas -/

theorem lookupHash_setHash_self (c : Cache) (p h : String) :
    lookupHash (setHash c p h) p = some h := by
  induction c with
  | nil => simp [setHash, lookupHash, List.find?]
  | cons e rest ih =>
    by_cases he : e.1 == p
    · simp [setHash, he, lookupHash, List.find?]
    · simp only [setHash, he, Bool.false_eq_true, if_false]
      simp only [lookupHash, List.find?, he] at ih ⊢
      exact ih

theorem lookupHash_setHash_other (c : Cache) (p h q : String) (hq : q ≠ p) :
    lookupHash (setHash c p h) q = lookupHash c q := by
  induction c with
  | nil =>
    simp only [setHash, lookupHash, List.find?]
    cases hc : p == q with
    | true => exact absurd (eq_of_beq hc) (fun hh => hq hh.symm)
    | false => rfl
  | cons e rest ih =>
    by_cases he : (e.1 == p) = true
    · simp only [setHash, he, if_true, lookupHash, List.find?]
      have he1 : e.1 = p := eq_of_beq he
      cases hc : p == q with
      | true => exact absurd (eq_of_beq hc) (fun hh => hq hh.symm)
      | false => rw [he1, hc]
    · simp only [setHash, he, Bool.false_eq_true, if_false, lookupHash, List.find?]
      cases hc : e.1 == q with
      | true => rfl
      | false =>
        simp only [lookupHash] at ih
        exact ih

theorem lookupHash_eraseHash_self (c : Cache) (p : String) :
    lookupHash (eraseHash c p) p = none := by
  have hfind : (eraseHash c p).find? (fun e => e.1 == p) = none := by
    apply List.find?_eq_none.mpr
    intro e he
    rcases List.mem_filter.mp he with ⟨_, hne⟩
    simpa using hne
  simp [lookupHash, hfind]

theorem lookupHash_init (hashFn : String → String) (fs : String → Option String) :
    ∀ (files : List String) (c : Cache) (q : String),
      lookupHash (files.foldl (fun c2 p => setHash c2 p (getFileHash hashFn fs p)) c) q =
        if q ∈ files then some (getFileHash hashFn fs q) else lookupHash c q := by
  intro files
  induction files with
  | nil => intro c q; simp
  | cons x xs ih =>
    intro c q
    rw [List.foldl_cons, ih]
    by_cases hq : q ∈ xs
    · rw [if_pos hq, if_pos (List.mem_cons_of_mem x hq)]
    · rw [if_neg hq]
      by_cases hx : q = x
      · subst hx
        rw [if_pos (by simp), lookupHash_setHash_self]
      · rw [if_neg (by simp [hx, hq]), lookupHash_setHash_other c x _ q hx]

theorem hasFileChanged_true_iff (hashFn : String → String) (fs : String → Option String)
    (c : Cache) (p : String) :
    (hasFileChanged hashFn fs c p).1 = true ↔
      lookupHash c p ≠ some (getFileHash hashFn fs p) := by
  unfold hasFileChanged
  by_cases h : lookupHash c p = some (getFileHash hashFn fs p)
  · rw [if_pos h]
    simp [h]
  · rw [if_neg h]
    simp [h]

theorem hasFileChanged_cache_self (hashFn : String → String) (fs : String → Option String)
    (c : Cache) (p : String) :
    lookupHash (hasFileChanged hashFn fs c p).2 p = some (getFileHash hashFn fs p) := by
  unfold hasFileChanged
  by_cases h : lookupHash c p = some (getFileHash hashFn fs p)
  · rw [if_pos h]
    exact h
  · rw [if_neg h]
    exact lookupHash_setHash_self c p _

theorem hasFileChanged_cache_other (hashFn : String → String) (fs : String → Option String)
    (c : Cache) (p q : String) (hq : q ≠ p) :
    lookupHash (hasFileChanged hashFn fs c p).2 q = lookupHash c q := by
  unfold hasFileChanged
  by_cases h : lookupHash c p = some (getFileHash hashFn fs p)
  · rw [if_pos h]
  · rw [if_neg h]
    exact lookupHash_setHash_other c p _ q hq

/-!  ## Debounce-window lemmas -/

theorem addPending_mem (l : List String) (p x : String) :
    x ∈ addPending l p ↔ x ∈ l ∨ x = p := by
  unfold addPending
  by_cases h : l.contains p = true
  · rw [if_pos h]
    constructor
    · exact Or.inl
    · intro hx
      rcases hx with hx | rfl
      · exact hx
      · exact List.elem_iff.mp h
  · rw [if_neg h]
    simp

theorem addPending_nodup (l : List String) (p : String) (h : l.Nodup) :
    (addPending l p).Nodup := by
  unfold addPending
  by_cases hc : l.contains p = true
  · rw [if_pos hc]
    exact h
  · rw [if_neg hc]
    refine List.Nodup.append h (List.nodup_singleton p) ?_
    have : p ∉ l := by
      rw [← contains_false_iff]
      cases hb : l.contains p
      · rfl
      · exact absurd hb hc
    simpa [List.disjoint_singleton] using this

theorem collectFold_mem (events : List String) :
    ∀ (acc : List String) (x : String),
      x ∈ events.foldl addPending acc ↔ x ∈ acc ∨ x ∈ events := by
  induction events with
  | nil => intro acc x; simp
  | cons e rest ih =>
    intro acc x
    rw [List.foldl_cons, ih, addPending_mem]
    constructor
    · rintro ((hx | rfl) | hx)
      · exact Or.inl hx
      · exact Or.inr (by simp)
      · exact Or.inr (List.mem_cons_of_mem e hx)
    · rintro (hx | hx)
      · exact Or.inl (Or.inl hx)
      · rcases List.mem_cons.mp hx with rfl | hx'
        · exact Or.inl (Or.inr rfl)
        · exact Or.inr hx'

theorem collectWindow_mem (events : List String) (x : String) :
    x ∈ collectWindow events ↔ x ∈ events := by
  unfold collectWindow
  rw [collectFold_mem]
  simp

theorem collectWindow_nodup (events : List String) : (collectWindow events).Nodup := by
  unfold collectWindow
  have hgen : ∀ (acc : List String), acc.Nodup → (events.foldl addPending acc).Nodup := by
    induction events with
    | nil => intro acc h; exact h
    | cons e rest ih =>
      intro acc h
      rw [List.foldl_cons]
      exact ih _ (addPending_nodup acc e h)
  exact hgen [] List.nodup_nil

theorem collectWindow_replicate (f : String) :
    ∀ (n : Nat), 1 ≤ n → collectWindow (List.replicate n f) = [f] := by
  have hstick : ∀ (m : Nat), (List.replicate m f).foldl addPending [f] = [f] := by
    intro m
    induction m with
    | zero => rfl
    | succ m ih =>
      rw [List.replicate_succ, List.foldl_cons]
      have : addPending [f] f = [f] := by
        unfold addPending
        rw [if_pos (List.elem_iff.mpr (by simp))]
      rw [this, ih]
  intro n hn
  cases n with
  | zero => omega
  | succ m =>
    unfold collectWindow
    rw [List.replicate_succ, List.foldl_cons]
    have h0 : addPending [] f = [f] := by
      unfold addPending
      rw [if_neg (by simp)]
      rfl
    rw [h0, hstick]

theorem filterChanged_mem (hashFn : String → String) (fs : String → Option String) :
    ∀ (l : List String) (c : Cache), l.Nodup → ∀ (p : String),
      (p ∈ (filterChanged hashFn fs l c).1 ↔
        p ∈ l ∧ lookupHash c p ≠ some (getFileHash hashFn fs p)) := by
  intro l
  induction l with
  | nil =>
    intro c _ p
    simp [filterChanged]
  | cons q rest ih =>
    intro c hnd p
    have hnd' : rest.Nodup := hnd.of_cons
    have hqrest : q ∉ rest := by
      intro hmem
      exact (List.nodup_cons.mp hnd).1 hmem
    unfold filterChanged
    by_cases hpq : p = q
    · subst hpq
      cases hb : (hasFileChanged hashFn fs c p).1 with
      | true =>
        simp only [hb, if_true]
        have hrest : p ∉ (filterChanged hashFn fs rest (hasFileChanged hashFn fs c p).2).1 := by
          intro hmem
          exact hqrest ((ih _ hnd' p).mp hmem).1
        constructor
        · intro _
          exact ⟨by simp, (hasFileChanged_true_iff hashFn fs c p).mp hb⟩
        · intro _
          simp
      | false =>
        simp only [hb, Bool.false_eq_true, if_false]
        constructor
        · intro hmem
          exact absurd ((ih _ hnd' p).mp hmem).1 hqrest
        · rintro ⟨_, hneq⟩
          exact absurd (hb.symm.trans ((hasFileChanged_true_iff hashFn fs c p).mpr hneq))
            Bool.false_ne_true
    · have hlook : lookupHash (hasFileChanged hashFn fs c q).2 p = lookupHash c p :=
        hasFileChanged_cache_other hashFn fs c q p hpq
      cases hb : (hasFileChanged hashFn fs c q).1 with
      | true =>
        simp only [hb, if_true]
        rw [List.mem_cons, ih _ hnd' p, hlook, List.mem_cons]
        tauto
      | false =>
        simp only [hb, Bool.false_eq_true, if_false]
        rw [ih _ hnd' p, hlook, List.mem_cons]
        tauto

theorem filterChanged_singleton (hashFn : String → String) (fs : String → Option String)
    (c : Cache) (f : String) :
    (filterChanged hashFn fs [f] c).1 =
      if lookupHash c f = some (getFileHash hashFn fs f) then [] else [f] := by
  by_cases h : lookupHash c f = some (getFileHash hashFn fs f)
  · rw [if_pos h]
    have hb : (hasFileChanged hashFn fs c f).1 = false := by
      cases hb2 : (hasFileChanged hashFn fs c f).1
      · rfl
      · exact absurd ((hasFileChanged_true_iff hashFn fs c f).mp hb2) (by simp [h])
    unfold filterChanged
    simp only [hb, Bool.false_eq_true, if_false]
    rfl
  · rw [if_neg h]
    have hb : (hasFileChanged hashFn fs c f).1 = true :=
      (hasFileChanged_true_iff hashFn fs c f).mpr h
    unfold filterChanged
    simp only [hb, if_true]
    rfl

/-!  ## Affected-file scan lemmas -/

theorem addPending_of_mem {l : List String} {p : String} (h : p ∈ l) :
    addPending l p = l := by
  unfold addPending
  rw [if_pos (List.elem_iff.mpr h)]

theorem addPending_of_not_mem {l : List String} {p : String} (h : p ∉ l) :
    addPending l p = l ++ [p] := by
  unfold addPending
  rw [if_neg (fun hc => h (List.elem_iff.mp hc))]

/-- `findAffectedFiles` for a single changed file: start from `[F]` and fold
the per-file import check over the tracked tree. -/
theorem findAffectedFiles_single (dirnameFn : String → String)
    (relativeFn : String → String → String)
    (allFiles : List (String × String)) (F : String) :
    findAffectedFiles dirnameFn relativeFn allFiles [F] =
      allFiles.foldl
        (fun acc file =>
          if importsChangedFile dirnameFn relativeFn file.2 file.1 F then
            addPending acc file.1
          else acc)
        [F] :=
  rfl

theorem affectedFold_stable (dirnameFn : String → String)
    (relativeFn : String → String → String) (F : String) :
    ∀ (l : List (String × String)),
      (∀ file ∈ l, file.1 ≠ F →
        importsChangedFile dirnameFn relativeFn file.2 file.1 F = false) →
      l.foldl
        (fun acc file =>
          if importsChangedFile dirnameFn relativeFn file.2 file.1 F then
            addPending acc file.1
          else acc)
        [F] = [F] := by
  have hgen : ∀ (l : List (String × String)),
      (∀ file ∈ l, file.1 ≠ F →
        importsChangedFile dirnameFn relativeFn file.2 file.1 F = false) →
      ∀ acc, acc = [F] →
      l.foldl
        (fun acc2 file =>
          if importsChangedFile dirnameFn relativeFn file.2 file.1 F then
            addPending acc2 file.1
          else acc2)
        acc = [F] := by
    intro l
    induction l with
    | nil => intro _ acc hacc; exact hacc
    | cons file rest ih =>
      intro hno acc hacc
      rw [List.foldl_cons]
      by_cases himp : importsChangedFile dirnameFn relativeFn file.2 file.1 F = true
      · have hfile : file.1 = F := by
          by_cases hF : file.1 = F
          · exact hF
          · exact absurd himp (by rw [hno file (by simp) hF]; exact Bool.false_ne_true)
        rw [if_pos himp]
        refine ih (fun f2 hf2 => hno f2 (List.mem_cons_of_mem file hf2)) _ ?_
        rw [hacc, hfile, addPending_of_mem (by simp)]
      · rw [if_neg himp]
        exact ih (fun f2 hf2 => hno f2 (List.mem_cons_of_mem file hf2)) acc hacc
  intro l hno
  exact hgen l hno [F] rfl

theorem affectedFold_saturated (dirnameFn : String → String)
    (relativeFn : String → String → String) (F : String) (G : String × String)
    (_hGF : G.1 ≠ F) :
    ∀ (l : List (String × String)),
      (∀ file ∈ l, file.1 ≠ F → file.1 ≠ G.1 →
        importsChangedFile dirnameFn relativeFn file.2 file.1 F = false) →
      ∀ acc, acc = [F, G.1] →
      l.foldl
        (fun acc2 file =>
          if importsChangedFile dirnameFn relativeFn file.2 file.1 F then
            addPending acc2 file.1
          else acc2)
        acc = [F, G.1] := by
  intro l
  induction l with
  | nil => intro _ acc hacc; exact hacc
  | cons file rest ih =>
    intro hno acc hacc
    rw [List.foldl_cons]
    by_cases himp : importsChangedFile dirnameFn relativeFn file.2 file.1 F = true
    · rw [if_pos himp]
      refine ih (fun f2 hf2 => hno f2 (List.mem_cons_of_mem file hf2)) _ ?_
      by_cases hF : file.1 = F
      · rw [hacc, hF, addPending_of_mem (by simp)]
      · by_cases hG : file.1 = G.1
        · rw [hacc, hG, addPending_of_mem (by simp)]
        · exact absurd himp (by rw [hno file (by simp) hF hG]; exact Bool.false_ne_true)
    · rw [if_neg himp]
      exact ih (fun f2 hf2 => hno f2 (List.mem_cons_of_mem file hf2)) acc hacc

theorem affectedFold_reaches (dirnameFn : String → String)
    (relativeFn : String → String → String) (F : String) (G : String × String)
    (hGF : G.1 ≠ F)
    (hGimp : importsChangedFile dirnameFn relativeFn G.2 G.1 F = true) :
    ∀ (l : List (String × String)),
      (∀ file ∈ l, file.1 ≠ F → file.1 ≠ G.1 →
        importsChangedFile dirnameFn relativeFn file.2 file.1 F = false) →
      G ∈ l →
      ∀ acc, acc = [F] →
      l.foldl
        (fun acc2 file =>
          if importsChangedFile dirnameFn relativeFn file.2 file.1 F then
            addPending acc2 file.1
          else acc2)
        acc = [F, G.1] := by
  intro l
  induction l with
  | nil => intro _ hG; simp at hG
  | cons file rest ih =>
    intro hno hG acc hacc
    have hrest : ∀ file ∈ rest, file.1 ≠ F → file.1 ≠ G.1 →
        importsChangedFile dirnameFn relativeFn file.2 file.1 F = false :=
      fun f2 hf2 => hno f2 (List.mem_cons_of_mem file hf2)
    rw [List.foldl_cons]
    by_cases himp : importsChangedFile dirnameFn relativeFn file.2 file.1 F = true
    · rw [if_pos himp]
      by_cases hF : file.1 = F
      · have hacc2 : addPending acc file.1 = [F] := by
          rw [hacc, hF, addPending_of_mem (by simp)]
        rcases List.mem_cons.mp hG with rfl | hG'
        · exact absurd hF hGF
        · exact ih hrest hG' _ hacc2
      · by_cases hGp : file.1 = G.1
        · have hacc2 : addPending acc file.1 = [F, G.1] := by
            rw [hacc, hGp, addPending_of_not_mem (by simpa using hGF)]
            rfl
          exact affectedFold_saturated dirnameFn relativeFn F G hGF rest hrest _ hacc2
        · rcases List.mem_cons.mp hG with rfl | hG'
          · exact absurd rfl hGp
          · exact absurd himp (by rw [hno file (by simp) hF hGp]; exact Bool.false_ne_true)
    · rw [if_neg himp]
      rcases List.mem_cons.mp hG with rfl | hG'
      · exact absurd hGimp himp
      · exact ih hrest hG' acc hacc

/-!  ## Structure of the reported cycle paths

Every recorded cycle is `path.concat(token)` for a call whose `path` argument
walks dependency edges from the visit root, so every reported path is a
non-empty dependency chain in traversal order. -/

theorem ccDeps_cycles_chains (providers : List Provider)
    (visit : String → CCState → Bool × CCState) :
    ∀ (deps : List String),
      (∀ d ∈ deps, ∀ s : CCState,
        (∀ l ∈ s.cycles, l ≠ [] ∧ edgeChainB providers l = true) →
        (∀ l ∈ (visit d s).2.cycles, l ≠ [] ∧ edgeChainB providers l = true)) →
      ∀ s : CCState,
        (∀ l ∈ s.cycles, l ≠ [] ∧ edgeChainB providers l = true) →
        (∀ l ∈ (ccDeps visit deps s).2.cycles, l ≠ [] ∧ edgeChainB providers l = true) := by
  intro deps
  induction deps with
  | nil =>
    intro _ s hs
    rw [ccDeps_nil]
    exact hs
  | cons d rest ih =>
    intro hv s hs
    rw [ccDeps_cons]
    cases hb : (visit d s).1 with
    | true =>
      rw [if_pos rfl]
      exact hv d (by simp) s hs
    | false =>
      rw [if_neg Bool.false_ne_true]
      exact ih (fun d2 hd2 => hv d2 (List.mem_cons_of_mem d hd2)) (visit d s).2
        (hv d (by simp) s hs)

theorem checkCircular_cycles_chains (providers : List Provider) :
    ∀ (fuel : Nat) (token : String) (path : List String) (s : CCState),
      edgeChainB providers (path ++ [token]) = true →
      (∀ l ∈ s.cycles, l ≠ [] ∧ edgeChainB providers l = true) →
      (∀ l ∈ (checkCircular providers fuel token path s).2.cycles,
        l ≠ [] ∧ edgeChainB providers l = true) := by
  intro fuel
  induction fuel with
  | zero =>
    intro token path s _ hs
    rw [checkCircular_zero]
    exact hs
  | succ fuel ih =>
    intro token path s hchain hs
    cases h1 : s.visiting.contains token with
    | true =>
      rw [checkCircular_hit providers fuel token path s h1]
      intro l hl
      rcases List.mem_append.mp hl with hl' | hl'
      · exact hs l hl'
      · have : l = path ++ [token] := by simpa using hl'
        subst this
        exact ⟨by simp, hchain⟩
    | false =>
      cases h2 : s.visited.contains token with
      | true =>
        rw [checkCircular_done providers fuel token path s h1 h2]
        exact hs
      | false =>
        cases hfp : findProvider providers token with
        | none =>
          rw [checkCircular_none providers fuel token path s h1 h2 hfp]
          exact hs
        | some provider =>
          rw [checkCircular_rec providers fuel token path s provider h1 h2 hfp]
          have hvd : ∀ d ∈ provider.dependencies, ∀ s2 : CCState,
              (∀ l ∈ s2.cycles, l ≠ [] ∧ edgeChainB providers l = true) →
              (∀ l ∈ (checkCircular providers fuel d (path ++ [token]) s2).2.cycles,
                l ≠ [] ∧ edgeChainB providers l = true) := by
            intro d hd s2 hs2
            have hedge : edgeB providers token d = true := by
              simp only [edgeB, succs, hfp]
              exact List.elem_iff.mpr hd
            exact ih d (path ++ [token]) s2 (edgeChainB_snoc path token hchain hedge) hs2
          have hD := ccDeps_cycles_chains providers
            (fun dep s2 => checkCircular providers fuel dep (path ++ [token]) s2)
            provider.dependencies hvd { s with visiting := s.visiting ++ [token] } hs
          cases hb : (ccDeps
              (fun dep s2 => checkCircular providers fuel dep (path ++ [token]) s2)
              provider.dependencies { s with visiting := s.visiting ++ [token] }).1 with
          | true =>
            rw [if_pos rfl]
            exact hD
          | false =>
            rw [if_neg Bool.false_ne_true]
            exact hD

theorem runValidation_cycles_chains (providers : List Provider) :
    ∀ l ∈ (runValidation providers).cycles, l ≠ [] ∧ edgeChainB providers l = true := by
  have hgen : ∀ (roots : List Provider) (s : CCState),
      (∀ l ∈ s.cycles, l ≠ [] ∧ edgeChainB providers l = true) →
      (∀ l ∈ (roots.foldl
          (fun s2 p => (checkCircular providers (providers.length + 1) p.token [] s2).2) s).cycles,
        l ≠ [] ∧ edgeChainB providers l = true) := by
    intro roots
    induction roots with
    | nil => intro s hs; exact hs
    | cons p rest ih =>
      intro s hs
      rw [List.foldl_cons]
      exact ih _ (checkCircular_cycles_chains providers (providers.length + 1) p.token [] s
        (by show edgeChainB providers ([] ++ [p.token]) = true; rfl) hs)
  exact hgen providers
    { errors := missingErrors providers, cycles := [], visiting := [], visited := [] }
    (by simp)

/-- A provider set whose providers declare no dependencies has an acyclic
graph (there are no edges at all). -/
theorem acyclic_of_no_deps (providers : List Provider)
    (h : ∀ p ∈ providers, p.dependencies = []) : Acyclic providers := by
  have hne : ∀ a b, ¬ edgeP providers a b := by
    intro a b hab
    unfold edgeP edgeB succs at hab
    cases hfp : findProvider providers a with
    | none =>
      rw [hfp] at hab
      simp at hab
    | some p =>
      rw [hfp] at hab
      have hmem : p ∈ providers := by
        rw [findProvider_eq_find?] at hfp
        exact List.mem_of_find?_eq_some hfp
      have hab2 : p.dependencies.contains b = true := hab
      rw [h p hmem] at hab2
      simp at hab2
  intro t htg
  rcases transGen_head_cases htg with hs | ⟨c, hs, _⟩
  · exact hne t t hs
  · exact hne t c hs

/-!  ## Claim theorems -/

/-- Claim C1 (code bug): the spec requires an incremental rebuild whose merged
result fails validation to abort before emission, leaving the previous
artifact untouched.  The source's `incrementalRebuild` never calls
`validateCompilationResult`: at a merged result with a missing dependency
(provider `A` depending on absent `B`) validation would fail, yet the rebuild
overwrites the previous artifact with the invalid container (the watcher does
keep running). -/
theorem c1_incremental_emits_unvalidated :
    validationErrors { providers := [⟨"A", ["B"], "a.ts"⟩], modules := [] } ≠ [] ∧
    incrementalRebuild
        (Except.ok { providers := [⟨"A", ["B"], "a.ts"⟩], modules := [] })
        ["a.ts"]
        { artifact := some { providers := [⟨"Old", [], "old.ts"⟩], modules := [] },
          watching := true } =
      { artifact := some { providers := [⟨"A", ["B"], "a.ts"⟩], modules := [] },
        watching := true } :=
  ⟨by decide, rfl⟩

/-- Claim C2 counterexample: for providers `A → B`, `B → C`, `C → B` the first
reported cycle path is `A -> B -> C -> B`, which starts at `A` and ends at
`B` — so not every reported cycle path starts and ends at the same token (and
the stale `visiting` marks additionally produce the truncated reports `B` and
`C`). -/
theorem c2_counterexample :
    ((runValidation [⟨"A", ["B"], "a.ts"⟩, ⟨"B", ["C"], "b.ts"⟩,
        ⟨"C", ["B"], "c.ts"⟩]).cycles.all (fun l => l.head? == l.getLast?)) = false ∧
    (runValidation [⟨"A", ["B"], "a.ts"⟩, ⟨"B", ["C"], "b.ts"⟩,
        ⟨"C", ["B"], "c.ts"⟩]).cycles = [["A", "B", "C", "B"], ["B"], ["C"]] := by
  exact ⟨by decide, by decide⟩

/-- Claim C2 (amended): for every provider set containing a dependency cycle
validation fails; every reported cycle path is a non-empty chain of
dependency edges in traversal order (the DFS path from the visit root to the
re-encountered token, not necessarily starting and ending at the same token);
in the two-disjoint-2-cycles example both cycles are reported; and no cycle is
reported for an acyclic provider set. -/
theorem c2_amended :
    (∀ (providers : List Provider) (mods : List String) (t : String),
      Relation.TransGen (edgeP providers) t t →
      validateCompilationResult { providers := providers, modules := mods } ≠
        Except.ok ()) ∧
    (∀ (providers : List Provider), ∀ l ∈ (runValidation providers).cycles,
      l ≠ [] ∧ edgeChainB providers l = true) ∧
    ((runValidation [⟨"A", ["B"], "a.ts"⟩, ⟨"B", ["A"], "b.ts"⟩,
        ⟨"C", ["D"], "c.ts"⟩, ⟨"D", ["C"], "d.ts"⟩]).cycles.contains ["A", "B", "A"] = true ∧
     (runValidation [⟨"A", ["B"], "a.ts"⟩, ⟨"B", ["A"], "b.ts"⟩,
        ⟨"C", ["D"], "c.ts"⟩, ⟨"D", ["C"], "d.ts"⟩]).cycles.contains ["C", "D", "C"] = true) ∧
    (∀ (providers : List Provider), Acyclic providers →
      (runValidation providers).cycles = []) := by
  refine ⟨?_, ?_, ⟨by decide, by decide⟩, ?_⟩
  · intro providers mods t htg hok
    have hcyc := cycles_nonempty_of_cyclic providers htg
    have herr : validationErrors { providers := providers, modules := mods } = [] :=
      (validate_ok_iff _).mp hok
    have hlen := runValidation_errors_length providers
    have herr2 : (runValidation providers).errors = [] := herr
    rw [herr2] at hlen
    simp only [List.length_nil] at hlen
    exact hcyc (List.length_eq_zero.mp (by omega))
  · intro providers
    exact runValidation_cycles_chains providers
  · intro providers hacy
    exact (runValidation_acyclic providers hacy).2

/-- Witness for the amended C2: a self-cycle makes validation fail; the
reported path `A -> B -> A` of the disjoint-cycles example is a non-empty
dependency chain; a dependency-free provider set reports no cycles. -/
theorem c2_amended_witness :
    validateCompilationResult { providers := [⟨"A", ["A"], "a.ts"⟩], modules := [] } ≠
      Except.ok () ∧
    (["A", "B", "A"] ≠ [] ∧ edgeChainB [⟨"A", ["B"], "a.ts"⟩, ⟨"B", ["A"], "b.ts"⟩,
      ⟨"C", ["D"], "c.ts"⟩, ⟨"D", ["C"], "d.ts"⟩] ["A", "B", "A"] = true) ∧
    (runValidation [⟨"X", [], "x.ts"⟩]).cycles = [] := by
  refine ⟨c2_amended.1 [⟨"A", ["A"], "a.ts"⟩] [] "A"
      (Relation.TransGen.single (by decide)), ?_, ?_⟩
  · exact c2_amended.2.1 [⟨"A", ["B"], "a.ts"⟩, ⟨"B", ["A"], "b.ts"⟩,
      ⟨"C", ["D"], "c.ts"⟩, ⟨"D", ["C"], "d.ts"⟩] ["A", "B", "A"] (by decide)
  · exact c2_amended.2.2.2 [⟨"X", [], "x.ts"⟩]
      (acyclic_of_no_deps _ (by intro p hp; simp at hp; subst hp; rfl))

/-- Claim C3: whenever some provider lists a dependency token for which no
provider exists, its `Missing dependency '<dep>' for provider '<token>'`
message is in the collected `errors` array at throw time — for every such
pair, not only the first — and validation fails. -/
theorem c3_missing_collected :
    ∀ (r : CompilationResult) (p : Provider) (d : String),
      p ∈ r.providers → d ∈ p.dependencies →
      (∀ q ∈ r.providers, ¬(q.token = d)) →
      (missingMessage p.token d ∈ validationErrors r ∧
       validateCompilationResult r ≠ Except.ok ()) := by
  intro r p d hp hd hmiss
  have hmem := validationErrors_mem_of_missing hp hd hmiss
  refine ⟨hmem, ?_⟩
  intro hok
  rw [validate_ok_iff] at hok
  rw [hok] at hmem
  simp at hmem

/-- Witness for C3: both providers `A` and `B` miss the token `Z`, and both
pairs' messages are collected. -/
theorem c3_witness :
    (missingMessage "A" "Z" ∈
        validationErrors
          { providers := [⟨"A", ["Z"], "a.ts"⟩, ⟨"B", ["Z"], "b.ts"⟩], modules := [] } ∧
      validateCompilationResult
          { providers := [⟨"A", ["Z"], "a.ts"⟩, ⟨"B", ["Z"], "b.ts"⟩], modules := [] } ≠
        Except.ok ()) ∧
    (missingMessage "B" "Z" ∈
        validationErrors
          { providers := [⟨"A", ["Z"], "a.ts"⟩, ⟨"B", ["Z"], "b.ts"⟩], modules := [] } ∧
      validateCompilationResult
          { providers := [⟨"A", ["Z"], "a.ts"⟩, ⟨"B", ["Z"], "b.ts"⟩], modules := [] } ≠
        Except.ok ()) := by
  exact ⟨c3_missing_collected _ ⟨"A", ["Z"], "a.ts"⟩ "Z" (by decide) (by decide) (by decide),
    c3_missing_collected _ ⟨"B", ["Z"], "b.ts"⟩ "Z" (by decide) (by decide) (by decide)⟩

/-- Claim C4: when every declared dependency has a provider and the graph is
acyclic, `validateCompilationResult` returns normally, and `buildDI` (with
validation enabled and the external compiler steps succeeding) proceeds to
write the artifact and exits normally. -/
theorem c4_clean_validates_and_emits :
    ∀ (r : CompilationResult),
      (∀ p ∈ r.providers, ∀ d ∈ p.dependencies, ∃ q ∈ r.providers, q.token = d) →
      Acyclic r.providers →
      (validateCompilationResult r = Except.ok () ∧
       ∀ (steps : PipelineSteps), steps.scan = Except.ok () →
         steps.compileRes = Except.ok r → steps.save = Except.ok () →
         buildDIModel true steps =
           { exitCode := none, emitted := true, thrownToCaller := none }) := by
  intro r hmd hacy
  have hval : validationErrors r = [] := by
    have h1 := runValidation_acyclic r.providers hacy
    show (runValidation r.providers).errors = []
    rw [h1.1, missingErrors_empty hmd]
  have hok : validateCompilationResult r = Except.ok () := (validate_ok_iff r).mpr hval
  refine ⟨hok, ?_⟩
  intro steps hscan hcomp hsave
  unfold buildDIModel buildDITry
  rw [hscan, hcomp, hsave]
  simp only [if_true, hok]

/-- Witness for C4: a single dependency-free provider validates and the build
pipeline emits with exit code `none`. -/
theorem c4_witness :
    validateCompilationResult { providers := [⟨"A", [], "a.ts"⟩], modules := [] } =
      Except.ok () ∧
    buildDIModel true
        { scan := Except.ok (),
          compileRes := Except.ok { providers := [⟨"A", [], "a.ts"⟩], modules := [] },
          save := Except.ok () } =
      { exitCode := none, emitted := true, thrownToCaller := none } := by
  have h := c4_clean_validates_and_emits { providers := [⟨"A", [], "a.ts"⟩], modules := [] }
    (by decide) (acyclic_of_no_deps _ (by intro p hp; simp at hp; subst hp; rfl))
  exact ⟨h.1, h.2 _ rfl rfl rfl⟩

/-- Claim C5: for a changed file `F`, if no other tracked file's content
matches the textual import patterns for `F`'s resolved specifier, the affected
set is exactly `[F]`; if exactly one other file `G` matches, the affected set
is exactly `[F, G]`.  The `node:path` helpers are abstracted as parameters. -/
theorem c5_affected_set :
    ∀ (dirnameFn : String → String) (relativeFn : String → String → String)
      (allFiles : List (String × String)) (F : String),
      ((∀ file ∈ allFiles, file.1 ≠ F →
          importsChangedFile dirnameFn relativeFn file.2 file.1 F = false) →
        findAffectedFiles dirnameFn relativeFn allFiles [F] = [F]) ∧
      (∀ G ∈ allFiles, G.1 ≠ F →
        importsChangedFile dirnameFn relativeFn G.2 G.1 F = true →
        (∀ file ∈ allFiles, file.1 ≠ F → file.1 ≠ G.1 →
          importsChangedFile dirnameFn relativeFn file.2 file.1 F = false) →
        findAffectedFiles dirnameFn relativeFn allFiles [F] = [F, G.1]) := by
  intro dirnameFn relativeFn allFiles F
  constructor
  · intro hno
    rw [findAffectedFiles_single]
    exact affectedFold_stable dirnameFn relativeFn F allFiles hno
  · intro G hG hGF hGimp hno
    rw [findAffectedFiles_single]
    exact affectedFold_reaches dirnameFn relativeFn F G hGF hGimp allFiles hno hG [F] rfl

/-- Witness for C5: with identity-like path helpers, a tree where nothing
imports `c.ts` yields affected set `[c.ts]`, and a tree where only `b.ts`
textually imports specifier `c` yields `[c.ts, b.ts]`. -/
theorem c5_witness :
    findAffectedFiles (fun _ => "") (fun _ c => c) [("a.ts", "x")] ["c.ts"] = ["c.ts"] ∧
    findAffectedFiles (fun _ => "") (fun _ c => c)
      [("a.ts", "x"), ("b.ts", "import y from \x27c\x27")] ["c.ts"] = ["c.ts", "b.ts"] := by
  constructor
  · exact (c5_affected_set (fun _ => "") (fun _ c => c) [("a.ts", "x")] "c.ts").1 (by decide)
  · exact (c5_affected_set (fun _ => "") (fun _ c => c)
        [("a.ts", "x"), ("b.ts", "import y from \x27c\x27")] "c.ts").2
      ("b.ts", "import y from \x27c\x27") (by decide) (by decide) (by decide) (by decide)

/-- Claim C6 counterexample: the `unlink` handler does drop the removed path's
hash entry, but the debounced change-detection pass that follows the remove
notification re-inserts an entry for the removed path with the empty-string
hash (the hash assigned to unreadable files) — so an entry for that path does
remain afterwards. -/
theorem c6_counterexample :
    lookupHash (unlinkHandler [("a.ts", "h1")] "a.ts") "a.ts" = none ∧
    lookupHash (processWindow (fun c => c) (fun _ => none)
        (unlinkHandler [("a.ts", "h1")] "a.ts") ["a.ts"]).2 "a.ts" = some "" := by
  exact ⟨rfl, rfl⟩

/-- Claim C6 (amended): seeding records each enumerated file's hash; a file
counts as changed exactly when its current hash differs from the recorded one;
the recorded hash equals the current hash right after change detection (which
runs before the rebuild, not after it); the `unlink` handler drops the
entry from any state; but the debounced change-detection that the handler
itself queues re-inserts an empty-string-hash entry for the still-deleted
path. -/
theorem c6_amended :
    (∀ (hashFn : String → String) (fs : String → Option String)
       (files : List String) (p : String), p ∈ files →
       lookupHash (initializeFileHashes hashFn fs files) p =
         some (getFileHash hashFn fs p)) ∧
    (∀ (hashFn : String → String) (fs : String → Option String) (c : Cache) (p : String),
       (hasFileChanged hashFn fs c p).1 = true ↔
         lookupHash c p ≠ some (getFileHash hashFn fs p)) ∧
    (∀ (hashFn : String → String) (fs : String → Option String) (c : Cache) (p : String),
       lookupHash (hasFileChanged hashFn fs c p).2 p = some (getFileHash hashFn fs p)) ∧
    (∀ (c : Cache) (p : String), lookupHash (unlinkHandler c p) p = none) ∧
    (∀ (hashFn : String → String) (fs : String → Option String) (c : Cache) (p : String),
       fs p = none →
       lookupHash (processWindow hashFn fs (unlinkHandler c p) [p]).2 p = some "") := by
  refine ⟨?_, ?_, ?_, ?_, ?_⟩
  · intro hashFn fs files p hp
    unfold initializeFileHashes
    rw [lookupHash_init hashFn fs files [] p, if_pos hp]
  · intro hashFn fs c p
    exact hasFileChanged_true_iff hashFn fs c p
  · intro hashFn fs c p
    exact hasFileChanged_cache_self hashFn fs c p
  · intro c p
    exact lookupHash_eraseHash_self c p
  · intro hashFn fs c p hfs
    have hcur : getFileHash hashFn fs p = "" := by
      unfold getFileHash
      rw [hfs]
    have hcw : collectWindow [p] = [p] := by
      unfold collectWindow
      rw [List.foldl_cons, List.foldl_nil, addPending_of_not_mem (by simp)]
      rfl
    show lookupHash (flushWindow hashFn fs (unlinkHandler c p) (collectWindow [p])).2 p = some ""
    rw [hcw]
    show lookupHash (hasFileChanged hashFn fs (unlinkHandler c p) p).2 p = some ""
    rw [← hcur]
    exact hasFileChanged_cache_self hashFn fs (unlinkHandler c p) p

/-- Witness for the amended C6: concrete instances of seeding and of the
empty-hash re-insertion after a remove notification. -/
theorem c6_amended_witness :
    lookupHash (initializeFileHashes (fun c => c) (fun _ => some "body") ["a.ts"]) "a.ts" =
      some (getFileHash (fun c => c) (fun _ => some "body") "a.ts") ∧
    lookupHash (processWindow (fun c => c) (fun _ => none)
        (unlinkHandler [("a.ts", "h1")] "a.ts") ["a.ts"]).2 "a.ts" = some "" := by
  exact ⟨c6_amended.1 (fun c => c) (fun _ => some "body") ["a.ts"] "a.ts" (by simp),
    c6_amended.2.2.2.2 (fun c => c) (fun _ => none) [("a.ts", "h1")] "a.ts" rfl⟩

/-- Claim C7: all notifications inside one debounce window are coalesced: N
notifications for the same file produce exactly one rebuild invocation when
the file's content hash changed and none when it equals the recorded hash; in
general a window produces at most one rebuild, and a path is in the rebuilt
batch exactly when it was notified in the window and its hash differs from
the recorded one. -/
theorem c7_debounce_coalescing :
    (∀ (hashFn : String → String) (fs : String → Option String) (c : Cache)
       (f : String) (n : Nat), 1 ≤ n →
       (processWindow hashFn fs c (List.replicate n f)).1 =
         (if lookupHash c f = some (getFileHash hashFn fs f) then [] else [[f]])) ∧
    (∀ (hashFn : String → String) (fs : String → Option String) (c : Cache)
       (events : List String), (processWindow hashFn fs c events).1.length ≤ 1) ∧
    (∀ (hashFn : String → String) (fs : String → Option String) (c : Cache)
       (events : List String) (p : String),
       (∃ b ∈ (processWindow hashFn fs c events).1, p ∈ b) ↔
         (p ∈ events ∧ lookupHash c p ≠ some (getFileHash hashFn fs p))) := by
  refine ⟨?_, ?_, ?_⟩
  · intro hashFn fs c f n hn
    unfold processWindow
    rw [collectWindow_replicate f n hn]
    show (if (filterChanged hashFn fs [f] c).1.isEmpty = true then ([] : List (List String))
        else [(filterChanged hashFn fs [f] c).1]) =
      (if lookupHash c f = some (getFileHash hashFn fs f) then [] else [[f]])
    rw [filterChanged_singleton]
    by_cases h : lookupHash c f = some (getFileHash hashFn fs f)
    · simp [h]
    · simp [h]
  · intro hashFn fs c events
    show (if (filterChanged hashFn fs (collectWindow events) c).1.isEmpty = true
        then ([] : List (List String))
        else [(filterChanged hashFn fs (collectWindow events) c).1]).length ≤ 1
    by_cases h : (filterChanged hashFn fs (collectWindow events) c).1.isEmpty = true
    · rw [if_pos h]
      simp
    · rw [if_neg h]
      simp
  · intro hashFn fs c events p
    have hnd := collectWindow_nodup events
    have hch := filterChanged_mem hashFn fs (collectWindow events) c hnd p
    constructor
    · rintro ⟨b, hb, hpb⟩
      have hb' : b ∈ (if (filterChanged hashFn fs (collectWindow events) c).1.isEmpty = true
          then ([] : List (List String))
          else [(filterChanged hashFn fs (collectWindow events) c).1]) := hb
      by_cases h : (filterChanged hashFn fs (collectWindow events) c).1.isEmpty = true
      · rw [if_pos h] at hb'
        simp at hb'
      · rw [if_neg h] at hb'
        have hbe : b = (filterChanged hashFn fs (collectWindow events) c).1 := by
          simpa using hb'
        subst hbe
        rcases hch.mp hpb with ⟨hmem, hneq⟩
        exact ⟨(collectWindow_mem events p).mp hmem, hneq⟩
    · rintro ⟨hev, hneq⟩
      have hmem : p ∈ (filterChanged hashFn fs (collectWindow events) c).1 :=
        hch.mpr ⟨(collectWindow_mem events p).mpr hev, hneq⟩
      have hne : (filterChanged hashFn fs (collectWindow events) c).1.isEmpty = false := by
        cases hie : (filterChanged hashFn fs (collectWindow events) c).1.isEmpty with
        | false => rfl
        | true =>
          exfalso
          rw [List.isEmpty_iff.mp hie] at hmem
          simp at hmem
      refine ⟨(filterChanged hashFn fs (collectWindow events) c).1, ?_, hmem⟩
      show (filterChanged hashFn fs (collectWindow events) c).1 ∈
        (if (filterChanged hashFn fs (collectWindow events) c).1.isEmpty = true
          then ([] : List (List String))
          else [(filterChanged hashFn fs (collectWindow events) c).1])
      rw [if_neg (by rw [hne]; exact Bool.false_ne_true)]
      simp

/-- Witness for C7: three notifications for `a.ts` within one window yield
exactly one rebuild when untracked (hash differs), and none when the recorded
hash already matches. -/
theorem c7_witness :
    (processWindow (fun sv => sv) (fun _ => some "body") [] (List.replicate 3 "a.ts")).1 =
      [["a.ts"]] ∧
    (processWindow (fun sv => sv) (fun _ => some "body") [("a.ts", "body")]
      (List.replicate 3 "a.ts")).1 = [] := by
  constructor
  · rw [c7_debounce_coalescing.1 (fun sv => sv) (fun _ => some "body") [] "a.ts" 3 (by omega),
      if_neg (by decide)]
  · rw [c7_debounce_coalescing.1 (fun sv => sv) (fun _ => some "body") [("a.ts", "body")]
      "a.ts" 3 (by omega), if_pos (by decide)]

/-- Claim C8 (code bug): the `di:watch` command parses a `--debounce <ms>`
option (default `"150"`), but `BuildDIOptions` has no debounce field, the
spread into `buildDI` drops it, and `setupWatchMode` hard-codes
`setTimeout(..., 150)` — so the coalescing window is 150ms regardless of the
option; with `--debounce 500` the claim's required window of 500ms is not
used. -/
theorem c8_debounce_option_unused :
    (∀ o : WatchDICommandOptions, watchCommandDebounceMs o = 150) ∧
    watchCommandDebounceMs
      { sourceDir := none, outputFile := none, tsconfig := none,
        validate := none, debounce := "500" } = 150 ∧
    (150 : Nat) ≠ 500 :=
  ⟨fun _ => rfl, rfl, by decide⟩

/-- Claim C9 counterexample: notify `a.ts`; the timer fires and starts a
rebuild (one in flight); notify `b.ts` while the rebuild is still in flight;
the re-armed timer fires and starts a second rebuild while the first has not
finished — the coordinator reaches two simultaneously in-flight rebuilds, so
a new rebuild can start while a previous one is in flight. -/
theorem c9_counterexample :
    (coordRun (fun _ => true)
        { pending := [], timerArmed := false, inFlight := 0, startedRebuilds := 0 }
        [CoordEvent.notify "a.ts", CoordEvent.timerFire,
          CoordEvent.notify "b.ts"]).inFlight = 1 ∧
    (coordRun (fun _ => true)
        { pending := [], timerArmed := false, inFlight := 0, startedRebuilds := 0 }
        [CoordEvent.notify "a.ts", CoordEvent.timerFire, CoordEvent.notify "b.ts",
          CoordEvent.timerFire]).inFlight = 2 ∧
    (coordRun (fun _ => true)
        { pending := [], timerArmed := false, inFlight := 0, startedRebuilds := 0 }
        [CoordEvent.notify "a.ts", CoordEvent.timerFire, CoordEvent.notify "b.ts",
          CoordEvent.timerFire]).startedRebuilds = 2 := by
  exact ⟨by decide, by decide, by decide⟩

/-- Claim C9 (amended): a change notification never starts a rebuild itself —
it only joins the pending set and re-arms the debounce timer (so work is
deferred into the next batch) — but the debounce callback has no in-flight
guard: a timer expiry with a non-empty changed batch starts a rebuild
regardless of how many rebuilds are already in flight, so rebuilds are not
strictly sequential. -/
theorem c9_amended :
    (∀ (oracle : String → Bool) (s : CoordState) (p : String),
      (coordStep oracle s (CoordEvent.notify p)).startedRebuilds = s.startedRebuilds ∧
      (coordStep oracle s (CoordEvent.notify p)).inFlight = s.inFlight ∧
      (coordStep oracle s (CoordEvent.notify p)).pending = addPending s.pending p ∧
      (coordStep oracle s (CoordEvent.notify p)).timerArmed = true) ∧
    (∀ (oracle : String → Bool) (s : CoordState),
      s.timerArmed = true → (s.pending.filter oracle).isEmpty = false →
      (coordStep oracle s CoordEvent.timerFire).startedRebuilds = s.startedRebuilds + 1 ∧
      (coordStep oracle s CoordEvent.timerFire).inFlight = s.inFlight + 1) := by
  constructor
  · intro oracle s p
    exact ⟨rfl, rfl, rfl, rfl⟩
  · intro oracle s ht hne
    unfold coordStep
    rw [if_pos ht, if_neg (by rw [hne]; exact Bool.false_ne_true)]
    exact ⟨rfl, rfl⟩

/-- Witness for the amended C9: with one rebuild in flight, a timer expiry
starts a second one, while a notification starts none. -/
theorem c9_amended_witness :
    (coordStep (fun _ => true)
      { pending := ["b.ts"], timerArmed := true, inFlight := 1, startedRebuilds := 1 }
      CoordEvent.timerFire).inFlight = 2 ∧
    (coordStep (fun _ => true)
      { pending := [], timerArmed := false, inFlight := 1, startedRebuilds := 1 }
      (CoordEvent.notify "b.ts")).startedRebuilds = 1 := by
  exact ⟨(c9_amended.2 (fun _ => true)
      { pending := ["b.ts"], timerArmed := true, inFlight := 1, startedRebuilds := 1 }
      rfl (by decide)).2,
    (c9_amended.1 (fun _ => true)
      { pending := [], timerArmed := false, inFlight := 1, startedRebuilds := 1 } "b.ts").1⟩

/-- Claim C10: `buildDI` lets no exception escape to its programmatic caller:
whatever the pipeline steps do, nothing is rethrown; when the try block throws
(scan, compile, validation or save), `buildDI` requests `process.exit(1)`, and
on success it requests no exit — so `generateDIContainer`'s non-fatal catch
around `buildDI` is never invoked on a build failure. -/
theorem c10_buildDI_never_rethrows :
    ∀ (validate : Bool) (steps : PipelineSteps),
      (buildDIModel validate steps).thrownToCaller = none ∧
      (∀ e : String, buildDITry validate steps = Except.error e →
        buildDIModel validate steps =
          { exitCode := some 1, emitted := false, thrownToCaller := none }) ∧
      (∀ b : Bool, buildDITry validate steps = Except.ok b →
        (buildDIModel validate steps).exitCode = none) := by
  intro validate steps
  refine ⟨?_, ?_, ?_⟩
  · unfold buildDIModel
    cases h : buildDITry validate steps with
    | ok v => rfl
    | error e => rfl
  · intro e he
    unfold buildDIModel
    rw [he]
  · intro b hb
    unfold buildDIModel
    rw [hb]

/-- Witness for C10: a compile failure is swallowed — the model reports exit
code 1 and nothing thrown to the caller. -/
theorem c10_witness :
    (buildDIModel true
      { scan := Except.ok (), compileRes := Except.error "boom",
        save := Except.ok () }).thrownToCaller = none ∧
    buildDIModel true
      { scan := Except.ok (), compileRes := Except.error "boom", save := Except.ok () } =
      { exitCode := some 1, emitted := false, thrownToCaller := none } := by
  exact ⟨(c10_buildDI_never_rethrows true _).1,
    (c10_buildDI_never_rethrows true _).2.1 "boom" rfl⟩

end PulzarDI
